import Mathlib

/-!
# Geometric clipmap of OpenGL_Flightsim: mesh generation and level placement

Shallow embedding of `OpenGL_Flightsim/clipmap.h` and of the PID controller
`OpenGL_Flightsim/src/pid.h`.

Conventions of the embedding:

* `float` values are exact rationals (`ℚ`); `pow(2.0f, n)` is `2 ^ n` with an
  integer exponent.
* `int` values are mathematical integers (`ℤ`); executions in which a signed
  computation would leave the `int` range are undefined in the source and are
  not modelled. The loops of `generate_mesh` only store non-negative `int`
  values into the `unsigned int` index vector, where the conversion is the
  identity (`Int.toNat`).
* A counting `for` loop whose body does not assign the counter is a left fold
  of the body over the values the counter takes.
* The OpenGL side effects of `draw` are a trace: the list of issued draw calls,
  each with the model matrix arguments that were current when it was issued.
  The other uniforms (`u_View`, `u_Projection`, `u_Level`), the polygon mode
  and console output do not influence which blocks are drawn or where, and are
  left out.
* `assert` is taken as enabled: a failed assertion ends construction with an
  error.
* The functions of the glm library are the matrices glm documents for them;
  a `glm::mat4` is the matrix it denotes (row, column). The `float` functions
  `cos` and `sin` are parameters of `glm_rotate` and `transform_matrix`.
* An index stream is read as `GL_TRIANGLE_STRIP`: every three consecutive
  indices form a triangle, and with primitive restart the stream is cut at the
  restart index.
-/

namespace Clipmap

/-! ## Loops -/

/-- Loop `for (int i = lo; i < hi; i++) body` as a state transformer. -/
def forLoop {σ : Type} (lo hi : ℤ) (body : ℤ → σ → σ) (s : σ) : σ :=
  (List.range (hi - lo).toNat).foldl (fun st (k : ℕ) => body (lo + (k : ℤ)) st) s

/-! ## Two-component vectors (`glm::vec2`) -/

/-- Value of `glm::vec2`. -/
structure vec2 where
  x : ℚ
  y : ℚ
deriving DecidableEq, Repr

/-- Value of `glm::vec3`. -/
structure vec3 where
  x : ℚ
  y : ℚ
  z : ℚ
deriving DecidableEq, Repr

namespace vec2

/-- Component-wise `v / s` for a scalar `s`. -/
def divs (v : vec2) (s : ℚ) : vec2 := ⟨v.x / s, v.y / s⟩

/-- Component-wise `v * s` for a scalar `s`. -/
def muls (v : vec2) (s : ℚ) : vec2 := ⟨v.x * s, v.y * s⟩

/-- Component-wise `v - s` for a scalar `s`. -/
def subs (v : vec2) (s : ℚ) : vec2 := ⟨v.x - s, v.y - s⟩

/-- Component-wise `a + b`. -/
def add (a b : vec2) : vec2 := ⟨a.x + b.x, a.y + b.y⟩

/-- Component-wise `a - b`. -/
def sub (a b : vec2) : vec2 := ⟨a.x - b.x, a.y - b.y⟩

/-- Component-wise `glm::floor`. -/
def floor (v : vec2) : vec2 := ⟨((⌊v.x⌋ : ℤ) : ℚ), ((⌊v.y⌋ : ℤ) : ℚ)⟩

/-- Component-wise `glm::abs`. -/
def abs (v : vec2) : vec2 := ⟨|v.x|, |v.y|⟩

end vec2

/-- Function `pow(2.0f, n)` for an `int` exponent. -/
def pow2 (n : ℤ) : ℚ := (2 : ℚ) ^ n

/-! ## The clipmap object -/

/-- The data members of `class Clipmap` that the placement arithmetic reads.
The class fixes all three by member initialisers (`reference`) and its
constructor takes no argument, so `reference` is the only value the program
constructs; they are fields here so that the loops and the arithmetic can be
stated for any value of the members. -/
structure Params where
  levels : ℤ
  segments : ℤ
  segment_size : ℚ
deriving DecidableEq, Repr

/-- The member initialisers: `levels = 3`, `segments = 3`, `segment_size = 2.0f`. -/
def reference : Params := ⟨3, 3, 2⟩

/-- Method `Clipmap::calc_base`. -/
def calc_base (self : Params) (level : ℤ) (camera_pos : vec2) : vec2 :=
  let scale : ℚ := pow2 level
  let next_scale : ℚ := pow2 (level + 2)
  let tile_size : ℚ := (self.segments : ℚ) * self.segment_size * scale
  let snapped : vec2 := ((camera_pos.divs next_scale).floor).muls next_scale
  let base : vec2 := snapped.subs (tile_size * 2)
  base

/-! ## Mesh generation -/

/-- Constant `primitive_restart`, the index that ends a triangle strip. -/
def primitive_restart : ℕ := 0xFFFF

/-- Function `generate_mesh`. The two output vectors are passed in (they are
reference parameters) and returned as a pair `(vertices, indices)`. -/
def generate_mesh (vertices : List vec3) (indices : List ℕ)
    (rows columns : ℤ) (size : ℚ) : List vec3 × List ℕ :=
  -- vertices.clear()
  let vertices : List vec3 := vertices.take 0
  let vertices : List vec3 :=
    forLoop 0 (rows + 1) (fun y vertices =>
      forLoop 0 (columns + 1) (fun x vertices =>
        vertices ++ [⟨(x : ℚ) * size, 0, (y : ℚ) * size⟩]) vertices) vertices
  -- indices.clear()
  let indices : List ℕ := indices.take 0
  let indices : List ℕ :=
    forLoop 0 rows (fun r indices =>
      let indices : List ℕ :=
        forLoop 0 (columns + 1) (fun c indices =>
          let i0 : ℤ := (r + 0) * (columns + 1) + c
          let indices := indices ++ [i0.toNat]
          let i1 : ℤ := (r + 1) * (columns + 1) + c
          indices ++ [i1.toNat]) indices
      indices ++ [primitive_restart]) indices
  (vertices, indices)

/-- Failure of `assert` in a constructor. -/
inductive Error where
  | assertion_failed
deriving DecidableEq, Repr

/-- The data a `Block` holds after construction: the uploaded vertex and index
buffers and the `unsigned int index_count`. -/
structure Block where
  vertices : List vec3
  indices : List ℕ
  index_count : ℕ
deriving DecidableEq, Repr

/-- Constructor `Block::Block(int width, int height, float segment_size)`:
the mesh is generated with `rows = width`, `columns = height`, and the
constructor asserts that neither vector is empty. -/
def Block.new (width height : ℤ) (segment_size : ℚ) : Except Error Block :=
  let vertices : List vec3 := []
  let indices : List ℕ := []
  let m := generate_mesh vertices indices width height segment_size
  let vertices := m.1
  let indices := m.2
  let index_count : ℕ := indices.length % 2 ^ 32
  if indices.length > 0 ∧ vertices.length > 0 then
    Except.ok ⟨vertices, indices, index_count⟩
  else
    Except.error Error.assertion_failed

/-! ## Per-frame assembly -/

/-- The five `Block` members of `class Clipmap`. -/
inductive BlockShape where
  | tile
  | col_fixup
  | row_fixup
  | horizontal
  | vertical
deriving DecidableEq, Repr

/-- One `draw()` call on a block member, with the arguments of the
`transform_matrix(position, scale, angle)` call whose result is the current
`u_Model` uniform. In `Clipmap::draw` every block draw directly follows the
assignment of `u_Model`. -/
structure DrawCall where
  block : BlockShape
  position : vec2
  scale : ℚ
  angle : ℚ
deriving DecidableEq, Repr

/-- The mutable state of the slot loops: the running `offset` and the draw
calls issued so far. -/
structure DrawState where
  offset : vec2
  calls : List DrawCall
deriving DecidableEq, Repr

/-- Body of the inner slot loop `for (int c = 0; c < cols; c++)` of
`Clipmap::draw`, for row `r` and column `c`. -/
def draw_slot (rows cols : ℤ) (base : vec2) (scale scaled_segment_size tile_size : ℚ)
    (r c : ℤ) (st : DrawState) : DrawState :=
  let st : DrawState :=
    if (r = 0 ∨ r = rows - 1) ∨ (c = 0 ∨ c = cols - 1) then
      let tile_pos : vec2 := base.add st.offset
      if c ≠ 2 ∧ r ≠ 2 then
        { st with calls := st.calls ++ [⟨BlockShape.tile, tile_pos, scale, 0⟩] }
      else if c = 2 then
        { st with calls := st.calls ++ [⟨BlockShape.col_fixup, tile_pos, scale, 0⟩] }
      else if r = 2 then
        { st with calls := st.calls ++ [⟨BlockShape.row_fixup, tile_pos, scale, 0⟩] }
      else st
    else st
  if c = 2 then
    { st with offset := ⟨st.offset.x, st.offset.y + 2 * scaled_segment_size⟩ }
  else
    { st with offset := ⟨st.offset.x, st.offset.y + tile_size⟩ }

/-- Body of the outer slot loop `for (int r = 0; r < rows; r++)` of
`Clipmap::draw`. -/
def draw_row (rows cols : ℤ) (base : vec2) (scale scaled_segment_size tile_size : ℚ)
    (r : ℤ) (st : DrawState) : DrawState :=
  let st : DrawState := { st with offset := ⟨st.offset.x, 0⟩ }
  let st : DrawState :=
    forLoop 0 cols (draw_slot rows cols base scale scaled_segment_size tile_size r) st
  if r = 2 then
    { st with offset := ⟨st.offset.x + 2 * scaled_segment_size, st.offset.y⟩ }
  else
    { st with offset := ⟨st.offset.x + tile_size, st.offset.y⟩ }

/-- The connector part of the level loop body of `Clipmap::draw`: the block
guarded by `if (l > min_level)`. -/
def draw_connector (self : Params) (min_level : ℤ) (camera_pos_xy : vec2) (l : ℤ)
    (calls : List DrawCall) : List DrawCall :=
  let scale : ℚ := pow2 l
  let scaled_segment_size : ℚ := self.segment_size * scale
  let tile_size : ℚ := (self.segments : ℚ) * scaled_segment_size
  let base : vec2 := calc_base self l camera_pos_xy
  if l > min_level then
    let prev_base : vec2 := calc_base self (l - 1) camera_pos_xy
    let diff : vec2 := (base.sub prev_base).abs
    let l_offset : vec2 := ⟨tile_size, tile_size⟩
    let l_offset : vec2 :=
      if diff.x = tile_size then ⟨l_offset.x + 7 * scaled_segment_size, l_offset.y⟩
      else l_offset
    calls ++ [⟨BlockShape.horizontal, base.add l_offset, scale, 0⟩]
  else calls

/-- Body of the level loop `for (int l = min_level; l <= levels; l++)` of
`Clipmap::draw`: the connector, then the 5 x 5 slot walk. -/
def draw_level (self : Params) (min_level : ℤ) (camera_pos_xy : vec2) (l : ℤ)
    (calls : List DrawCall) : List DrawCall :=
  let rows : ℤ := 5
  let cols : ℤ := 5
  let scale : ℚ := pow2 l
  let scaled_segment_size : ℚ := self.segment_size * scale
  let tile_size : ℚ := (self.segments : ℚ) * scaled_segment_size
  let base : vec2 := calc_base self l camera_pos_xy
  let calls : List DrawCall := draw_connector self min_level camera_pos_xy l calls
  let st : DrawState := ⟨⟨0, 0⟩, calls⟩
  let st : DrawState :=
    forLoop 0 rows (draw_row rows cols base scale scaled_segment_size tile_size) st
  st.calls

/-- Method `Clipmap::draw`, as the list of block draws it issues for a render
context with the given `is_shadow_pass` flag and camera world position. -/
def draw (self : Params) (is_shadow_pass : Bool) (camera_pos : vec3) : List DrawCall :=
  if !is_shadow_pass then
    let camera_pos_xy : vec2 := ⟨camera_pos.x, camera_pos.z⟩
    let min_level : ℤ := 0
    forLoop min_level (self.levels + 1) (draw_level self min_level camera_pos_xy) []
  else []

/-! ## The degenerate-triangle plane -/

/-- Function `create_plane`. The two output vectors are passed in and returned
as a pair `(vertices, indices)`. -/
def create_plane (vertices : List vec3) (indices : List ℕ) : List vec3 × List ℕ :=
  let tile_height : ℚ := 1
  let tile_width : ℚ := 2
  let rows : ℤ := 2
  let columns : ℤ := 5
  -- vertices.clear()
  let vertices : List vec3 := vertices.take 0
  let vertices : List vec3 :=
    forLoop 0 (rows + 1) (fun r vertices =>
      forLoop 0 (columns + 1) (fun c vertices =>
        vertices ++ [⟨(c : ℚ) * tile_height, 0, (r : ℚ) * tile_width⟩]) vertices) vertices
  -- indices.clear()
  let indices : List ℕ := indices.take 0
  let indices : List ℕ :=
    forLoop 0 rows (fun r indices =>
      let d0 : ℤ := (r + 0) * (columns + 1) + 0
      let indices := indices ++ [d0.toNat]
      let indices : List ℕ :=
        forLoop 0 (columns + 1) (fun c indices =>
          let i0 : ℤ := (r + 0) * (columns + 1) + c
          let indices := indices ++ [i0.toNat]
          let i1 : ℤ := (r + 1) * (columns + 1) + c
          indices ++ [i1.toNat]) indices
      let d1 : ℤ := (r + 0) * (columns + 1) + columns + 1
      indices ++ [d1.toNat]) indices
  (vertices, indices)

/-! ## The model matrix -/

/-- Value of `glm::mat4`, as the matrix it denotes: entry `(i, j)` is row `i`,
column `j`. -/
abbrev mat4 : Type := Matrix (Fin 4) (Fin 4) ℚ

/-- Library function `glm::scale(m, v)`: `m` times the scaling by `v`. -/
def glm_scale (m : mat4) (v : vec3) : mat4 :=
  m * !![v.x, 0, 0, 0; 0, v.y, 0, 0; 0, 0, v.z, 0; 0, 0, 0, 1]

/-- Library function `glm::translate(m, v)`: `m` times the translation by `v`. -/
def glm_translate (m : mat4) (v : vec3) : mat4 :=
  m * !![1, 0, 0, v.x; 0, 1, 0, v.y; 0, 0, 1, v.z; 0, 0, 0, 1]

/-- Library function `glm::rotate(m, angle, axis)` for a unit vector `axis`:
`m` times the rotation by `angle` about `axis`. The `float` functions `cos`
and `sin` of the C library are parameters. -/
def glm_rotate (cos sin : ℚ → ℚ) (m : mat4) (angle : ℚ) (axis : vec3) : mat4 :=
  let c : ℚ := cos angle
  let s : ℚ := sin angle
  let temp : vec3 := ⟨(1 - c) * axis.x, (1 - c) * axis.y, (1 - c) * axis.z⟩
  m * !![c + temp.x * axis.x, temp.y * axis.x - s * axis.z, temp.z * axis.x + s * axis.y, 0;
         temp.x * axis.y + s * axis.z, c + temp.y * axis.y, temp.z * axis.y - s * axis.x, 0;
         temp.x * axis.z - s * axis.y, temp.y * axis.z + s * axis.x, c + temp.z * axis.z, 0;
         0, 0, 0, 1]

/-- Method `Clipmap::transform_matrix(position, scale, angle)`; `draw` always
calls it with the default `angle = 0`. -/
def transform_matrix (cos sin : ℚ → ℚ) (position : vec2) (scale : ℚ) (angle : ℚ) : mat4 :=
  let one : mat4 := 1
  let S : mat4 := glm_scale one ⟨scale, scale, scale⟩
  let T : mat4 := glm_translate one ⟨position.x, 0, position.y⟩
  let R : mat4 := glm_rotate cos sin one angle ⟨0, 1, 0⟩
  T * R * S

/-! ## The blocks of the clipmap -/

/-- The arguments `(width, height, segment_size)` with which the constructor of
`Clipmap` builds each of its block members. -/
def block_args : BlockShape → ℤ × ℤ × ℚ
  | BlockShape.tile => (3, 3, 2)
  | BlockShape.col_fixup => (2, 3, 2)
  | BlockShape.row_fixup => (3, 2, 2)
  | BlockShape.horizontal => (8, 1, 2)
  | BlockShape.vertical => (1, 7, 2)

/-- The block member of `Clipmap` for a shape, as its constructor builds it. -/
def block_member (shape : BlockShape) : Except Error Block :=
  Block.new (block_args shape).1 (block_args shape).2.1 (block_args shape).2.2

/-! ## Specification-side closed forms -/

/-- The run of indices the specification gives for row `r`: the pair (top, bottom)
of each column `0..columns` in order, then the restart index. -/
def index_run (columns r : ℕ) : List ℕ :=
  (List.range (columns + 1)).flatMap
    (fun c => [r * (columns + 1) + c, (r + 1) * (columns + 1) + c])
    ++ [primitive_restart]

/-- The role the specification gives a drawn slot `(r, c)`: column fixup when
`c = 2`, row fixup when `r = 2` (and `c ≠ 2`), regular tile otherwise. -/
def slot_role (r c : ℤ) : BlockShape :=
  if c = 2 then BlockShape.col_fixup
  else if r = 2 then BlockShape.row_fixup
  else BlockShape.tile

/-- The slots of the 5 x 5 grid that lie on its outer border, in row-major
order (`r` outer, `c` inner). -/
def border_slots : List (ℕ × ℕ) :=
  ((List.range 5).flatMap (fun r => (List.range 5).map (fun c => (r, c)))).filter
    (fun rc => rc.1 = 0 ∨ rc.1 = 4 ∨ rc.2 = 0 ∨ rc.2 = 4)

/-- The accumulated offset in front of slot index `i`: every slot advances by
the tile size `t`, except slot 2, which advances by `2 * s` (`s` the scaled
segment size). -/
def slot_offset (t s : ℚ) : ℕ → ℚ
  | 0 => 0
  | i + 1 => slot_offset t s i + (if i = 2 then 2 * s else t)

/-- The 16 block draws of one ring, as the specification lists them: one per
border slot in row-major order, at `base + (offset r, offset c)`, with the
given scale and no rotation. -/
def ring_calls (base : vec2) (scale s t : ℚ) : List DrawCall :=
  border_slots.map (fun rc =>
    (⟨slot_role (rc.1 : ℤ) (rc.2 : ℤ),
      ⟨base.x + slot_offset t s rc.1, base.y + slot_offset t s rc.2⟩, scale, 0⟩ : DrawCall))

/-- The horizontal connector placement the specification gives for level `l`:
at `calc_base l p + (tile_size + k, tile_size)` with scale `2^l` and no
rotation, `k` being `7 * segment_size * 2^l` when the bases of levels `l` and
`l - 1` are `tile_size` apart in `x`, and 0 otherwise. -/
def connector_call (self : Params) (p : vec2) (l : ℤ) : DrawCall :=
  let tile_size : ℚ := (self.segments : ℚ) * self.segment_size * (2 : ℚ) ^ l
  let k : ℚ :=
    if |(calc_base self l p).x - (calc_base self (l - 1) p).x| = tile_size then
      7 * self.segment_size * (2 : ℚ) ^ l
    else 0
  ⟨BlockShape.horizontal,
    ⟨(calc_base self l p).x + (tile_size + k), (calc_base self l p).y + tile_size⟩,
    (2 : ℚ) ^ l, 0⟩

/-- The draws the specification lists for level `l` when the lowest level is
`min_level`: the connector if `l > min_level`, then the ring. -/
def level_calls (self : Params) (min_level : ℤ) (p : vec2) (l : ℤ) : List DrawCall :=
  (if min_level < l then [connector_call self p l] else [])
    ++ ring_calls (calc_base self l p) ((2 : ℚ) ^ l) (self.segment_size * (2 : ℚ) ^ l)
        ((self.segments : ℚ) * self.segment_size * (2 : ℚ) ^ l)

/-- A triangle strip read as triangles: every three consecutive indices. -/
def strip_triangles : List ℕ → List (ℕ × ℕ × ℕ)
  | a :: b :: c :: rest => (a, b, c) :: strip_triangles (b :: c :: rest)
  | _ => []

/-- An index stream with primitive restart read as triangles: the stream is
cut at every restart index and each piece is a strip of its own. -/
def restart_triangles (restart : ℕ) (indices : List ℕ) : List (ℕ × ℕ × ℕ) :=
  (indices.splitOn restart).flatMap strip_triangles

/-- Two triangles with the same three corners, in any order. -/
def same_triangle (t u : ℕ × ℕ × ℕ) : Bool :=
  decide (List.Perm [t.1, t.2.1, t.2.2] [u.1, u.2.1, u.2.2])

/-- A triangle of zero area by its indices: the three are not pairwise
distinct. -/
def degenerate (t : ℕ × ℕ × ℕ) : Bool :=
  decide (t.1 = t.2.1 ∨ t.2.1 = t.2.2 ∨ t.1 = t.2.2)

/-- An axis-aligned rectangle `[x0, x1] x [z0, z1]` of the world XZ plane. -/
structure Rect where
  x0 : ℚ
  x1 : ℚ
  z0 : ℚ
  z1 : ℚ
deriving DecidableEq, Repr

/-- The point `(x, z)` lies in the closed rectangle. -/
def Rect.mem (R : Rect) (x z : ℚ) : Prop :=
  (R.x0 ≤ x ∧ x ≤ R.x1) ∧ (R.z0 ≤ z ∧ z ≤ R.z1)

/-- The point `(x, z)` lies in the open rectangle. -/
def Rect.interior (R : Rect) (x z : ℚ) : Prop :=
  (R.x0 < x ∧ x < R.x1) ∧ (R.z0 < z ∧ z < R.z1)

instance (R : Rect) (x z : ℚ) : Decidable (R.mem x z) := by
  unfold Rect.mem; infer_instance

instance (R : Rect) (x z : ℚ) : Decidable (R.interior x z) := by
  unfold Rect.interior; infer_instance

/-- The footprint of a block draw without rotation: the extent of the block's
mesh, `columns * segment_size` along x and `rows * segment_size` along z
(the block is built with `rows = width`, `columns = height`), scaled and
translated to its placement. -/
def footprint (d : DrawCall) : Rect :=
  let rows : ℤ := (block_args d.block).1
  let columns : ℤ := (block_args d.block).2.1
  let size : ℚ := (block_args d.block).2.2
  ⟨d.position.x, d.position.x + d.scale * ((columns : ℚ) * size),
   d.position.y, d.position.y + d.scale * ((rows : ℚ) * size)⟩

/-- The cell of slot `(r, c)` in the grid of accumulated offsets. -/
def slot_rect (base : vec2) (t s : ℚ) (rc : ℕ × ℕ) : Rect :=
  ⟨base.x + slot_offset t s rc.1, base.x + slot_offset t s (rc.1 + 1),
   base.y + slot_offset t s rc.2, base.y + slot_offset t s (rc.2 + 1)⟩

/-- The square a ring covers together with its hole:
`[base, base + 4 * t + 2 * s]` in both axes. -/
def ring_outer (base : vec2) (t s : ℚ) : Rect :=
  ⟨base.x, base.x + (4 * t + 2 * s), base.y, base.y + (4 * t + 2 * s)⟩

/-- The inner hole of a ring, left to the finer level:
`[base + t, base + 3 * t + 2 * s]` in both axes. -/
def ring_hole (base : vec2) (t s : ℚ) : Rect :=
  ⟨base.x + t, base.x + (3 * t + 2 * s), base.y + t, base.y + (3 * t + 2 * s)⟩

end Clipmap

/-! ## The PID controller (`src/pid.h`) -/

/-- The data members of `class PID`; the constant member `output_range` is
`PID.output_range`. -/
structure PID where
  integral : ℚ
  initialized : Bool
  previous_value : ℚ
  previous_error : ℚ
  use_value : Bool
  proportional_gain : ℚ
  integral_gain : ℚ
  derivative_gain : ℚ
deriving DecidableEq, Repr

namespace PID

/-- Constant member `output_range{-1.0f, 1.0f}`. -/
def output_range : Clipmap.vec2 := ⟨-1, 1⟩

/-- Constructor `PID(kp, ki, kd, use_value)` (`use_value` defaults to `true`),
with the default member initialisers `integral = 0`, `initialized = false`,
`previous_value = previous_error = 0`. -/
def new (kp ki kd : ℚ) (use_value : Bool) : PID :=
  ⟨0, false, 0, 0, use_value, kp, ki, kd⟩

/-- Method `PID::reset`. -/
def reset (self : PID) : PID :=
  { self with initialized := false }

/-- Library function `glm::clamp(x, minVal, maxVal)`:
`min(max(x, minVal), maxVal)`. -/
def clamp (x minVal maxVal : ℚ) : ℚ := min (max x minVal) maxVal

/-- The three terms of one `calculate` call and the state it leaves. -/
structure Terms where
  P : ℚ
  I : ℚ
  D : ℚ
  state : PID
deriving DecidableEq, Repr

/-- Body of `PID::calculate` up to its `return` statement: the terms `P`, `I`,
`D` and the updated members. For `dt = 0` the `float` divisions give NaN or an
infinity, which the rational model does not represent; the claims are stated
for `dt ≠ 0`. -/
def calculate_terms (self : PID) (current_value target_value dt : ℚ) : Terms :=
  let error : ℚ := target_value - current_value
  let P : ℚ := error * self.proportional_gain
  let self : PID :=
    if !self.initialized then
      { self with previous_error := error, previous_value := current_value }
    else self
  let self : PID := { self with integral := self.integral + error * dt }
  let I : ℚ := self.integral * self.integral_gain
  let error_rate_of_change : ℚ := (error - self.previous_error) / dt
  let self : PID := { self with previous_error := error }
  let value_rate_of_change : ℚ := (current_value - self.previous_value) / dt
  let self : PID := { self with previous_value := current_value }
  let D : ℚ :=
    (if self.use_value then value_rate_of_change else error_rate_of_change)
      * self.derivative_gain
  ⟨P, I, D, self⟩

/-- Method `PID::calculate`: the returned value and the object after the call. -/
def calculate (self : PID) (current_value target_value dt : ℚ) : ℚ × PID :=
  let r : Terms := calculate_terms self current_value target_value dt
  (clamp (r.P + r.I + r.D) output_range.x output_range.y, r.state)

/-- A sequence of `calculate` calls `(current_value, target_value, dt)` on one
object: the returned values in order, and the object after the last call. -/
def calculate_all (self : PID) : List (ℚ × ℚ × ℚ) → List ℚ × PID
  | [] => ([], self)
  | c :: rest =>
    let r := calculate self c.1 c.2.1 c.2.2
    let rs := calculate_all r.2 rest
    (r.1 :: rs.1, rs.2)

end PID

namespace Clipmap

/-! ## Level placement -/

theorem pow2_natCast (n : ℕ) : pow2 (n : ℤ) = (2 : ℚ) ^ n := by
  simp [pow2]

theorem pow2_natCast_add_two (n : ℕ) : pow2 ((n : ℤ) + 2) = (2 : ℚ) ^ (n + 2) := by
  have h : ((n : ℤ) + 2) = ((n + 2 : ℕ) : ℤ) := by push_cast; ring
  rw [h, pow2_natCast]

/-- C1: for every level `l ≥ 0` and viewer position `p`, `calc_base l p` is
`floor(p / 2^(l+2)) * 2^(l+2) - 2 * (segments * segment_size * 2^l)` in each
component; with the reference parameters, level 0 and viewer `(0, 0)` the base
is `(-12, -12)`. -/
theorem calc_base_formula :
    (∀ (self : Params) (l : ℕ) (p : vec2),
      (calc_base self (l : ℤ) p).x
          = ((⌊p.x / (2 : ℚ) ^ (l + 2)⌋ : ℤ) : ℚ) * (2 : ℚ) ^ (l + 2)
            - 2 * ((self.segments : ℚ) * self.segment_size * (2 : ℚ) ^ l) ∧
      (calc_base self (l : ℤ) p).y
          = ((⌊p.y / (2 : ℚ) ^ (l + 2)⌋ : ℤ) : ℚ) * (2 : ℚ) ^ (l + 2)
            - 2 * ((self.segments : ℚ) * self.segment_size * (2 : ℚ) ^ l)) ∧
    calc_base reference 0 ⟨0, 0⟩ = ⟨-12, -12⟩ := by
  refine ⟨fun self l p => ?_, ?_⟩
  · simp only [calc_base, vec2.subs, vec2.muls, vec2.floor, vec2.divs,
      pow2_natCast, pow2_natCast_add_two]
    constructor <;> ring
  · simp [calc_base, reference, vec2.subs, vec2.muls, vec2.floor, vec2.divs, pow2]
    norm_num

theorem pow2_pos (n : ℤ) : 0 < pow2 n := by
  unfold pow2
  positivity

theorem pow2_succ (n : ℤ) : pow2 (n + 1) = 2 * pow2 n := by
  unfold pow2
  rw [zpow_add_one₀ (by norm_num : (2 : ℚ) ≠ 0)]
  ring

/-- Snapping to a grid of step `s` lands on the grid of step `2 * s` or one step
`s` above it. -/
theorem floor_half_step (p s : ℚ) (hs : 0 < s) :
    ((⌊p / s⌋ : ℤ) : ℚ) * s - ((⌊p / (2 * s)⌋ : ℤ) : ℚ) * (2 * s) = 0 ∨
    ((⌊p / s⌋ : ℤ) : ℚ) * s - ((⌊p / (2 * s)⌋ : ℤ) : ℚ) * (2 * s) = s := by
  have hq : p / s = 2 * (p / (2 * s)) := by
    field_simp
    ring
  have hlo : (2 * ⌊p / (2 * s)⌋ : ℤ) ≤ ⌊p / s⌋ := by
    rw [Int.le_floor, hq]
    push_cast
    have := Int.floor_le (p / (2 * s))
    linarith
  have hhi : ⌊p / s⌋ < (2 * ⌊p / (2 * s)⌋ + 2 : ℤ) := by
    rw [Int.floor_lt, hq]
    push_cast
    have := Int.lt_floor_add_one (p / (2 * s))
    linarith
  have hcases : ⌊p / s⌋ = 2 * ⌊p / (2 * s)⌋ ∨ ⌊p / s⌋ = 2 * ⌊p / (2 * s)⌋ + 1 := by
    omega
  rcases hcases with h | h
  · left
    rw [h]; push_cast; ring
  · right
    rw [h]; push_cast; ring

/-- The base of level `l - 1` lies `tile_size(l)` or `tile_size(l) + 2^(l+1)`
past the base of level `l`, in one coordinate. -/
theorem prev_base_offset (self : Params) (l : ℤ) (p : ℚ) :
    (((⌊p / pow2 (l - 1 + 2)⌋ : ℤ) : ℚ) * pow2 (l - 1 + 2)
        - (self.segments : ℚ) * self.segment_size * pow2 (l - 1) * 2)
      - (((⌊p / pow2 (l + 2)⌋ : ℤ) : ℚ) * pow2 (l + 2)
        - (self.segments : ℚ) * self.segment_size * pow2 l * 2)
      = (self.segments : ℚ) * self.segment_size * pow2 l ∨
    (((⌊p / pow2 (l - 1 + 2)⌋ : ℤ) : ℚ) * pow2 (l - 1 + 2)
        - (self.segments : ℚ) * self.segment_size * pow2 (l - 1) * 2)
      - (((⌊p / pow2 (l + 2)⌋ : ℤ) : ℚ) * pow2 (l + 2)
        - (self.segments : ℚ) * self.segment_size * pow2 l * 2)
      = (self.segments : ℚ) * self.segment_size * pow2 l + pow2 (l + 1) := by
  have e1 : l - 1 + 2 = l + 1 := by ring
  have e2 : l + 2 = (l + 1) + 1 := by ring
  have e3 : pow2 l = 2 * pow2 (l - 1) := by
    have := pow2_succ (l - 1)
    rwa [sub_add_cancel] at this
  rw [e1, e2, pow2_succ (l + 1), e3]
  rcases floor_half_step p (pow2 (l + 1)) (pow2_pos _) with h | h
  · left; linarith
  · right; linarith

/-! ## Loops that only append -/

theorem forLoop_append {α : Type} (lo hi : ℤ) (g : ℤ → List α) (s : List α) :
    forLoop lo hi (fun i acc => acc ++ g i) s
      = s ++ (List.range (hi - lo).toNat).flatMap (fun (k : ℕ) => g (lo + (k : ℤ))) := by
  unfold forLoop
  induction (hi - lo).toNat with
  | zero => simp
  | succ n ih =>
    rw [List.range_succ, List.foldl_append, ih]
    simp [List.flatMap_append, List.append_assoc]

/-- Blocks of a common length `w` laid end to end: position `k * w + j` is
position `j` of block `k`. -/
theorem getElem?_flatMap_range {α : Type} (f : ℕ → List α) (w : ℕ)
    (hlen : ∀ k, (f k).length = w) (n k j : ℕ) (hk : k < n) (hj : j < w) :
    ((List.range n).flatMap f)[k * w + j]? = (f k)[j]? := by
  have hlenAll : ∀ m, ((List.range m).flatMap f).length = m * w := by
    intro m
    induction m with
    | zero => simp
    | succ m ih => simp [List.range_succ, List.flatMap_append, ih, hlen, Nat.succ_mul]
  induction n with
  | zero => omega
  | succ n ih =>
    rw [List.range_succ, List.flatMap_append]
    by_cases hkn : k < n
    · have hlt : k * w + j < ((List.range n).flatMap f).length := by
        rw [hlenAll]
        calc k * w + j < k * w + w := by omega
          _ = (k + 1) * w := by ring
          _ ≤ n * w := Nat.mul_le_mul_right w hkn
      rw [List.getElem?_append_left hlt]
      exact ih hkn
    · have hkeq : k = n := by omega
      subst hkeq
      have hge : ((List.range k).flatMap f).length ≤ k * w + j := by
        rw [hlenAll]; omega
      rw [List.getElem?_append_right hge, hlenAll]
      simp

theorem length_flatMap_range {α : Type} (f : ℕ → List α) (w : ℕ)
    (hlen : ∀ k, (f k).length = w) (n : ℕ) :
    ((List.range n).flatMap f).length = n * w := by
  induction n with
  | zero => simp
  | succ m ih => simp [List.range_succ, List.flatMap_append, ih, hlen, Nat.succ_mul]

/-! ## Closed forms of `generate_mesh` -/

/-- The vertex list of `generate_mesh`, row by row. -/
theorem generate_mesh_vertices (vs : List vec3) (is : List ℕ) (rows columns : ℤ) (size : ℚ) :
    (generate_mesh vs is rows columns size).1
      = (List.range (rows + 1).toNat).flatMap (fun (y : ℕ) =>
          (List.range (columns + 1).toNat).map (fun (x : ℕ) =>
            (⟨(x : ℚ) * size, 0, (y : ℚ) * size⟩ : vec3))) := by
  simp only [generate_mesh, forLoop_append, List.take_zero, List.nil_append, sub_zero,
    zero_add, Int.cast_natCast]
  refine congrArg (List.flatMap (List.range (rows + 1).toNat)) (funext fun y => ?_)
  induction (columns + 1).toNat with
  | zero => simp
  | succ n ih => simp [List.range_succ, List.flatMap_append, ih]

/-- The index list of `generate_mesh` on natural dimensions, run by run. -/
theorem generate_mesh_indices (vs : List vec3) (is : List ℕ) (rows columns : ℕ) (size : ℚ) :
    (generate_mesh vs is (rows : ℤ) (columns : ℤ) size).2
      = (List.range rows).flatMap (index_run columns) := by
  simp only [generate_mesh, List.append_assoc, List.singleton_append, forLoop_append,
    List.take_zero, List.nil_append, sub_zero, zero_add, Int.toNat_ofNat, add_zero]
  refine congrArg (List.flatMap (List.range rows)) (funext fun r => ?_)
  have h1 : ((columns : ℤ) + 1).toNat = columns + 1 := by omega
  rw [h1, index_run]
  refine congrArg (fun t => t ++ [primitive_restart]) ?_
  refine congrArg (List.flatMap (List.range (columns + 1))) (funext fun c => ?_)
  have e0 : ((r : ℤ) * ((columns : ℤ) + 1) + (c : ℤ)).toNat = r * (columns + 1) + c := by
    have : ((r : ℤ) * ((columns : ℤ) + 1) + (c : ℤ)) = ((r * (columns + 1) + c : ℕ) : ℤ) := by
      push_cast; ring
    rw [this, Int.toNat_ofNat]
  have e1 : (((r : ℤ) + 1) * ((columns : ℤ) + 1) + (c : ℤ)).toNat
      = (r + 1) * (columns + 1) + c := by
    have : (((r : ℤ) + 1) * ((columns : ℤ) + 1) + (c : ℤ))
        = (((r + 1) * (columns + 1) + c : ℕ) : ℤ) := by
      push_cast; ring
    rw [this, Int.toNat_ofNat]
  rw [e0, e1]

theorem index_run_length (columns r : ℕ) :
    (index_run columns r).length = 2 * (columns + 1) + 1 := by
  unfold index_run
  rw [List.length_append, length_flatMap_range (fun c => [r * (columns + 1) + c, (r + 1) * (columns + 1) + c]) 2 (fun _ => rfl)]
  simp
  ring

/-- The real indices of a run: position `2 * c + e` holds the top (`e = 0`) or
bottom (`e = 1`) vertex of column `c`. -/
theorem index_run_real (columns r c e : ℕ) (hc : c ≤ columns) (he : e < 2) :
    (index_run columns r)[2 * c + e]? = some ((r + e) * (columns + 1) + c) := by
  unfold index_run
  have hlen : ((List.range (columns + 1)).flatMap
      (fun c => [r * (columns + 1) + c, (r + 1) * (columns + 1) + c])).length
        = (columns + 1) * 2 := length_flatMap_range (fun c => [r * (columns + 1) + c, (r + 1) * (columns + 1) + c]) 2 (fun _ => rfl) _
  rw [List.getElem?_append_left (by rw [hlen]; omega), Nat.mul_comm 2 c,
    getElem?_flatMap_range (fun c => [r * (columns + 1) + c, (r + 1) * (columns + 1) + c]) 2 (fun _ => rfl) (columns + 1) c e (by omega) he]
  interval_cases e <;> simp

/-- The last position of a run holds the restart index. -/
theorem index_run_last (columns r : ℕ) :
    (index_run columns r)[2 * (columns + 1)]? = some primitive_restart := by
  unfold index_run
  have hlen : ((List.range (columns + 1)).flatMap
      (fun c => [r * (columns + 1) + c, (r + 1) * (columns + 1) + c])).length
        = (columns + 1) * 2 := length_flatMap_range (fun c => [r * (columns + 1) + c, (r + 1) * (columns + 1) + c]) 2 (fun _ => rfl) _
  rw [List.getElem?_append_right (by rw [hlen]; omega), hlen]
  have : 2 * (columns + 1) - (columns + 1) * 2 = 0 := by omega
  rw [this]
  rfl

theorem generate_mesh_indices_length (vs : List vec3) (is : List ℕ)
    (rows columns : ℕ) (size : ℚ) :
    (generate_mesh vs is (rows : ℤ) (columns : ℤ) size).2.length
      = rows * (2 * (columns + 1) + 1) := by
  rw [generate_mesh_indices, length_flatMap_range _ _ (index_run_length columns)]

/-- Position `r * (2 * (columns+1) + 1) + j` of the index list is position `j`
of the run of row `r`. -/
theorem generate_mesh_indices_getElem? (vs : List vec3) (is : List ℕ)
    (rows columns : ℕ) (size : ℚ) (r j : ℕ) (hr : r < rows)
    (hj : j < 2 * (columns + 1) + 1) :
    (generate_mesh vs is (rows : ℤ) (columns : ℤ) size).2[r * (2 * (columns + 1) + 1) + j]?
      = (index_run columns r)[j]? := by
  rw [generate_mesh_indices]
  exact getElem?_flatMap_range (index_run columns) _ (index_run_length columns) rows r j hr hj

/-- Every real index of the run of a row `r < rows` is below the vertex count. -/
theorem real_index_lt (rows columns r c e : ℕ) (hr : r < rows) (hc : c ≤ columns)
    (he : e < 2) : (r + e) * (columns + 1) + c < (rows + 1) * (columns + 1) := by
  have h1 : (r + e) * (columns + 1) + c < (r + e + 1) * (columns + 1) := by
    rw [Nat.add_mul (r + e) 1, Nat.one_mul]; omega
  have h2 : (r + e + 1) * (columns + 1) ≤ (rows + 1) * (columns + 1) :=
    Nat.mul_le_mul_right _ (by omega)
  omega

theorem count_restart_index_run (rows columns r : ℕ) (hr : r < rows)
    (hcap : (rows + 1) * (columns + 1) ≤ 0xFFFF) :
    List.count primitive_restart (index_run columns r) = 1 := by
  unfold index_run
  rw [List.count_append]
  have hnot : List.count primitive_restart ((List.range (columns + 1)).flatMap
      (fun c => [r * (columns + 1) + c, (r + 1) * (columns + 1) + c])) = 0 := by
    rw [List.count_eq_zero]
    intro hmem
    rcases List.mem_flatMap.1 hmem with ⟨c, hcr, hc⟩
    have hc' : c ≤ columns := by
      have := List.mem_range.1 hcr
      omega
    have b0 := real_index_lt rows columns r c 0 hr hc' (by decide)
    have b1 := real_index_lt rows columns r c 1 hr hc' (by decide)
    simp only [List.mem_cons, List.mem_singleton, List.not_mem_nil, or_false,
      primitive_restart] at hc
    rw [Nat.add_zero] at b0
    rcases hc with h | h <;> omega
  rw [hnot]
  simp

theorem count_restart_runs (rows columns n : ℕ) (hn : n ≤ rows)
    (hcap : (rows + 1) * (columns + 1) ≤ 0xFFFF) :
    List.count primitive_restart ((List.range n).flatMap (index_run columns)) = n := by
  induction n with
  | zero => simp
  | succ m ih =>
    rw [List.range_succ, List.flatMap_append, List.count_append, ih (by omega)]
    simp only [List.flatMap_cons, List.flatMap_nil, List.append_nil]
    rw [count_restart_index_run rows columns m (by omega) hcap]

/-! ## The slot walk -/

theorem forLoop_zero_five {σ : Type} (body : ℤ → σ → σ) (s : σ) :
    forLoop 0 5 body s = body 4 (body 3 (body 2 (body 1 (body 0 s)))) := by
  have h5 : ((5 : ℤ) - 0).toNat = 5 := rfl
  have hr : List.range 5 = [0, 1, 2, 3, 4] := rfl
  unfold forLoop
  rw [h5, hr]
  simp

theorem border_slots_eq :
    border_slots = [(0, 0), (0, 1), (0, 2), (0, 3), (0, 4), (1, 0), (1, 4), (2, 0), (2, 4),
      (3, 0), (3, 4), (4, 0), (4, 1), (4, 2), (4, 3), (4, 4)] := by
  decide

/-- One slot step on an explicit state: the column offset advances, and a
border slot issues the draw of its role at `base + offset`. -/
theorem draw_slot_mk (base : vec2) (scale s t : ℚ) (r c : ℤ) (x y : ℚ)
    (calls : List DrawCall) :
    draw_slot 5 5 base scale s t r c ⟨⟨x, y⟩, calls⟩
      = ⟨⟨x, y + (if c = 2 then 2 * s else t)⟩,
          calls ++ (if (r = 0 ∨ r = 4) ∨ (c = 0 ∨ c = 4) then
            [(⟨slot_role r c, ⟨base.x + x, base.y + y⟩, scale, 0⟩ : DrawCall)] else [])⟩ := by
  have h4 : (5 : ℤ) - 1 = 4 := by norm_num
  unfold draw_slot slot_role
  simp only [h4, vec2.add]
  by_cases hr0 : r = 0 ∨ r = 4 <;> by_cases hc0 : c = 0 ∨ c = 4 <;>
    by_cases hc : c = 2 <;> by_cases hr : r = 2 <;> simp [hr0, hc0, hc, hr]

/-- The 5 x 5 slot walk appends the 16 ring draws to the calls issued before it. -/
theorem slot_walk (base : vec2) (scale s t : ℚ) (calls : List DrawCall) :
    (forLoop 0 5 (draw_row 5 5 base scale s t) ⟨⟨0, 0⟩, calls⟩).calls
      = calls ++ ring_calls base scale s t := by
  have A0 : slot_offset t s 0 = 0 := rfl
  have A1 : slot_offset t s 1 = 0 + t := rfl
  have A2 : slot_offset t s 2 = 0 + t + t := rfl
  have A3 : slot_offset t s 3 = 0 + t + t + 2 * s := rfl
  have A4 : slot_offset t s 4 = 0 + t + t + 2 * s + t := rfl
  simp only [forLoop_zero_five, draw_row, draw_slot_mk, ring_calls, border_slots_eq, List.map,
    A0, A1, A2, A3, A4]
  norm_num [slot_role]

theorem draw_connector_eq (self : Params) (min_level : ℤ) (p : vec2) (l : ℤ)
    (calls : List DrawCall) :
    draw_connector self min_level p l calls
      = calls ++ (if min_level < l then [connector_call self p l] else []) := by
  unfold draw_connector connector_call
  by_cases h : min_level < l
  · have ht : (self.segments : ℚ) * (self.segment_size * (2 : ℚ) ^ l)
        = (self.segments : ℚ) * self.segment_size * (2 : ℚ) ^ l := by ring
    simp only [gt_iff_lt, h, if_true, vec2.add, vec2.sub, vec2.abs, pow2, ht]
    refine congrArg (fun d => calls ++ [d]) ?_
    split_ifs with hd
    · simp only [DrawCall.mk.injEq, vec2.mk.injEq, true_and, and_true]
      ring
    · simp only [DrawCall.mk.injEq, vec2.mk.injEq, true_and, and_true]
      ring
  · simp [h]

/-- The body of the level loop appends the specification's draws of the level. -/
theorem draw_level_eq (self : Params) (min_level : ℤ) (p : vec2) (l : ℤ)
    (calls : List DrawCall) :
    draw_level self min_level p l calls = calls ++ level_calls self min_level p l := by
  unfold draw_level level_calls
  simp only [slot_walk, draw_connector_eq, List.append_assoc, pow2]
  have ht : (self.segments : ℚ) * (self.segment_size * (2 : ℚ) ^ l)
      = (self.segments : ℚ) * self.segment_size * (2 : ℚ) ^ l := by ring
  rw [ht]

theorem ring_calls_blocks (base : vec2) (scale s t : ℚ) :
    (ring_calls base scale s t).map DrawCall.block
      = [BlockShape.tile, BlockShape.tile, BlockShape.col_fixup, BlockShape.tile,
         BlockShape.tile, BlockShape.tile, BlockShape.tile, BlockShape.row_fixup,
         BlockShape.row_fixup, BlockShape.tile, BlockShape.tile, BlockShape.tile,
         BlockShape.tile, BlockShape.col_fixup, BlockShape.tile, BlockShape.tile] := by
  simp only [ring_calls, border_slots_eq, List.map]
  norm_num [slot_role]

theorem ring_calls_length (base : vec2) (scale s t : ℚ) :
    (ring_calls base scale s t).length = 16 := by
  simp [ring_calls, border_slots_eq]

theorem ring_calls_block_mem (base : vec2) (scale s t : ℚ) (d : DrawCall)
    (hd : d ∈ ring_calls base scale s t) :
    d.block = BlockShape.tile ∨ d.block = BlockShape.col_fixup
      ∨ d.block = BlockShape.row_fixup := by
  have hmem : d.block ∈ (ring_calls base scale s t).map DrawCall.block :=
    List.mem_map_of_mem _ hd
  rw [ring_calls_blocks] at hmem
  simp only [List.mem_cons, List.mem_singleton, List.not_mem_nil, or_false] at hmem
  tauto

theorem filter_horizontal_ring (base : vec2) (scale s t : ℚ) :
    (ring_calls base scale s t).filter (fun d => d.block = BlockShape.horizontal) = [] := by
  rw [List.filter_eq_nil_iff]
  intro d hd
  rcases ring_calls_block_mem base scale s t d hd with h | h | h <;> simp [h]

theorem filter_horizontal_level (self : Params) (min_level : ℤ) (p : vec2) (l : ℤ) :
    (level_calls self min_level p l).filter (fun d => d.block = BlockShape.horizontal)
      = if min_level < l then [connector_call self p l] else [] := by
  unfold level_calls
  rw [List.filter_append, filter_horizontal_ring, List.append_nil]
  by_cases h : min_level < l
  · simp [h, connector_call]
  · simp [h]

/-- The draws of a non-shadow pass, level by level. -/
theorem draw_eq (self : Params) (cam : vec3) :
    draw self false cam
      = (List.range (self.levels + 1).toNat).flatMap
          (fun (l : ℕ) => level_calls self 0 ⟨cam.x, cam.z⟩ (l : ℤ)) := by
  unfold draw
  have hbody : draw_level self 0 ⟨cam.x, cam.z⟩
      = fun l acc => acc ++ level_calls self 0 ⟨cam.x, cam.z⟩ l := by
    funext l acc
    exact draw_level_eq self 0 _ l acc
  simp only [Bool.not_false, if_true, hbody, forLoop_append, List.nil_append, sub_zero,
    zero_add]

theorem levels_length (self : Params) (p : vec2) (n : ℕ) :
    ((List.range (n + 1)).flatMap
        (fun (l : ℕ) => level_calls self 0 p (l : ℤ))).length = 16 * (n + 1) + n := by
  induction n with
  | zero =>
    have h1 : List.range (0 + 1) = [0] := rfl
    rw [h1]
    simp [level_calls, ring_calls_length]
  | succ m ih =>
    rw [List.range_succ, List.flatMap_append, List.length_append, ih]
    have hpos : (0 : ℤ) < ((m + 1 : ℕ) : ℤ) := by omega
    simp only [List.flatMap_cons, List.flatMap_nil, List.append_nil, level_calls, hpos,
      if_true, List.length_append, List.length_singleton, ring_calls_length]
    omega

theorem levels_filter_horizontal (self : Params) (p : vec2) (n : ℕ) :
    ((List.range (n + 1)).flatMap
        (fun (l : ℕ) => level_calls self 0 p (l : ℤ))).filter
          (fun d => d.block = BlockShape.horizontal)
      = (List.range n).map (fun (k : ℕ) => connector_call self p ((k : ℤ) + 1)) := by
  induction n with
  | zero =>
    have h1 : List.range (0 + 1) = [0] := rfl
    rw [h1]
    simp [filter_horizontal_level]
  | succ m ih =>
    rw [List.range_succ, List.flatMap_append, List.filter_append, ih, List.range_succ,
      List.map_append]
    have hpos : (0 : ℤ) < ((m + 1 : ℕ) : ℤ) := by omega
    simp only [List.flatMap_cons, List.flatMap_nil, List.append_nil,
      filter_horizontal_level, hpos, if_true, List.map_cons, List.map_nil]
    push_cast
    rfl

theorem generate_mesh_vertices_length (vs : List vec3) (is : List ℕ) (rows columns : ℤ)
    (size : ℚ) :
    (generate_mesh vs is rows columns size).1.length
      = (rows + 1).toNat * (columns + 1).toNat := by
  rw [generate_mesh_vertices]
  exact length_flatMap_range _ _ (fun _ => by simp) _

theorem generate_mesh_indices_nil (vs : List vec3) (is : List ℕ) (rows columns : ℤ)
    (size : ℚ) (hrows : rows ≤ 0) :
    (generate_mesh vs is rows columns size).2 = [] := by
  have h0 : (rows - 0).toNat = 0 := by omega
  simp only [generate_mesh, forLoop, h0, List.range_zero, List.foldl_nil, List.take_zero]

theorem mem_index_run (columns r i : ℕ) :
    i ∈ index_run columns r ↔
      (∃ c : ℕ, c ≤ columns ∧ (i = r * (columns + 1) + c ∨ i = (r + 1) * (columns + 1) + c))
        ∨ i = primitive_restart := by
  unfold index_run
  rw [List.mem_append, List.mem_singleton, List.mem_flatMap]
  constructor
  · rintro (⟨c, hc, hi⟩ | h)
    · left
      refine ⟨c, Nat.lt_succ_iff.1 (List.mem_range.1 hc), ?_⟩
      simpa using hi
    · exact Or.inr h
  · rintro (⟨c, hc, hi⟩ | h)
    · left
      refine ⟨c, List.mem_range.2 (Nat.lt_succ_iff.2 hc), ?_⟩
      simpa using hi
    · exact Or.inr h

/-- Below the vertex cap, the real indices of a mesh are valid vertex positions
and every vertex position is used. -/
theorem indices_valid (vs : List vec3) (is : List ℕ) (rows columns : ℕ) (size : ℚ)
    (hrows : 1 ≤ rows) (hcap : (rows + 1) * (columns + 1) ≤ 0xFFFF) :
    (∀ i ∈ (generate_mesh vs is (rows : ℤ) (columns : ℤ) size).2,
      i ≠ primitive_restart →
        i < (generate_mesh vs is (rows : ℤ) (columns : ℤ) size).1.length) ∧
    (∀ v : ℕ, v < (generate_mesh vs is (rows : ℤ) (columns : ℤ) size).1.length →
      v ≠ primitive_restart ∧ v ∈ (generate_mesh vs is (rows : ℤ) (columns : ℤ) size).2) := by
  have hlen : (generate_mesh vs is (rows : ℤ) (columns : ℤ) size).1.length
      = (rows + 1) * (columns + 1) := by
    rw [generate_mesh_vertices_length]
    have h1 : ((rows : ℤ) + 1).toNat = rows + 1 := by omega
    have h2 : ((columns : ℤ) + 1).toNat = columns + 1 := by omega
    rw [h1, h2]
  rw [hlen, generate_mesh_indices]
  constructor
  · intro i hi hne
    rcases List.mem_flatMap.1 hi with ⟨r, hr, hir⟩
    have hr' : r < rows := List.mem_range.1 hr
    rcases (mem_index_run columns r i).1 hir with ⟨c, hc, h | h⟩ | h
    · have := real_index_lt rows columns r c 0 hr' hc (by decide)
      rw [Nat.add_zero] at this
      rw [h]; exact this
    · rw [h]; exact real_index_lt rows columns r c 1 hr' hc (by decide)
    · exact absurd h hne
  · intro v hv
    refine ⟨by simp only [primitive_restart]; omega, ?_⟩
    have hW : 0 < columns + 1 := Nat.succ_pos _
    have hdm : v = v / (columns + 1) * (columns + 1) + v % (columns + 1) := by
      rw [Nat.mul_comm]; exact (Nat.div_add_mod v (columns + 1)).symm
    have hx : v % (columns + 1) ≤ columns := Nat.lt_succ_iff.1 (Nat.mod_lt v hW)
    have hy : v / (columns + 1) < rows + 1 := (Nat.div_lt_iff_lt_mul hW).2 hv
    rw [List.mem_flatMap]
    by_cases hlast : v / (columns + 1) < rows
    · refine ⟨v / (columns + 1), List.mem_range.2 hlast, ?_⟩
      exact (mem_index_run columns _ v).2 (Or.inl ⟨v % (columns + 1), hx, Or.inl hdm⟩)
    · have hyr : v / (columns + 1) = rows - 1 + 1 := by omega
      refine ⟨rows - 1, List.mem_range.2 (by omega), ?_⟩
      refine (mem_index_run columns _ v).2 (Or.inl ⟨v % (columns + 1), hx, Or.inr ?_⟩)
      rw [← hyr]; exact hdm

/-! ## The geometry of a ring -/

theorem filter_ring_level (self : Params) (min_level : ℤ) (p : vec2) (l : ℤ) :
    (level_calls self min_level p l).filter (fun d => d.block ≠ BlockShape.horizontal)
      = ring_calls (calc_base self l p) ((2 : ℚ) ^ l) (self.segment_size * (2 : ℚ) ^ l)
          ((self.segments : ℚ) * self.segment_size * (2 : ℚ) ^ l) := by
  unfold level_calls
  rw [List.filter_append]
  have hconn : (if min_level < l then [connector_call self p l] else []).filter
      (fun d => d.block ≠ BlockShape.horizontal) = [] := by
    by_cases h : min_level < l
    · simp [h, connector_call]
    · simp [h]
  rw [hconn, List.nil_append, List.filter_eq_self]
  intro d hd
  rcases ring_calls_block_mem _ _ _ _ d hd with h | h | h <;> simp [h]

theorem slot_offset_values (t s : ℚ) :
    slot_offset t s 0 = 0 ∧ slot_offset t s 1 = t ∧ slot_offset t s 2 = 2 * t ∧
    slot_offset t s 3 = 2 * t + 2 * s ∧ slot_offset t s 4 = 3 * t + 2 * s ∧
    slot_offset t s 5 = 4 * t + 2 * s := by
  have A1 : slot_offset t s 1 = 0 + t := rfl
  have A2 : slot_offset t s 2 = 0 + t + t := rfl
  have A3 : slot_offset t s 3 = 0 + t + t + 2 * s := rfl
  have A4 : slot_offset t s 4 = 0 + t + t + 2 * s + t := rfl
  have A5 : slot_offset t s 5 = 0 + t + t + 2 * s + t + t := rfl
  refine ⟨rfl, ?_, ?_, ?_, ?_, ?_⟩
  · rw [A1]; ring
  · rw [A2]; ring
  · rw [A3]; ring
  · rw [A4]; ring
  · rw [A5]; ring

theorem slot_offset_strictMono (t s : ℚ) (ht : 0 < t) (hs : 0 < s) :
    StrictMono (slot_offset t s) := by
  apply strictMono_nat_of_lt_succ
  intro n
  show slot_offset t s n < slot_offset t s n + (if n = 2 then 2 * s else t)
  split_ifs <;> linarith

theorem mem_border_slots (rc : ℕ × ℕ) :
    rc ∈ border_slots ↔
      rc.1 < 5 ∧ rc.2 < 5 ∧ (rc.1 = 0 ∨ rc.1 = 4 ∨ rc.2 = 0 ∨ rc.2 = 4) := by
  obtain ⟨r, c⟩ := rc
  unfold border_slots
  simp only [List.mem_filter, List.mem_flatMap, List.mem_map, List.mem_range,
    Prod.mk.injEq, decide_eq_true_eq]
  constructor
  · rintro ⟨⟨r', hr', c', hc', hrr, hcc⟩, hb⟩
    subst hrr; subst hcc
    exact ⟨hr', hc', hb⟩
  · rintro ⟨hr, hc, hb⟩
    exact ⟨⟨r, hr, c, hc, rfl, rfl⟩, hb⟩

/-- Two different slots have cells without a common interior point. -/
theorem slot_rect_disjoint (base : vec2) (t s : ℚ) (ht : 0 < t) (hs : 0 < s)
    (a b : ℕ × ℕ) (hne : a ≠ b) (x z : ℚ) :
    ¬ ((slot_rect base t s a).interior x z ∧ (slot_rect base t s b).interior x z) := by
  have hmono := (slot_offset_strictMono t s ht hs).monotone
  rintro ⟨⟨⟨ha1, ha2⟩, ⟨ha3, ha4⟩⟩, ⟨⟨hb1, hb2⟩, ⟨hb3, hb4⟩⟩⟩
  simp only [slot_rect] at ha1 ha2 ha3 ha4 hb1 hb2 hb3 hb4
  have hcases : a.1 < b.1 ∨ b.1 < a.1 ∨ a.2 < b.2 ∨ b.2 < a.2 := by
    by_contra hcon
    apply hne
    have h1 : a.1 = b.1 := by omega
    have h2 : a.2 = b.2 := by omega
    exact Prod.ext h1 h2
  rcases hcases with h | h | h | h
  · have := hmono (show a.1 + 1 ≤ b.1 from h)
    linarith
  · have := hmono (show b.1 + 1 ≤ a.1 from h)
    linarith
  · have := hmono (show a.2 + 1 ≤ b.2 from h)
    linarith
  · have := hmono (show b.2 + 1 ≤ a.2 from h)
    linarith

/-- A coordinate between the first and the last offset lies in one of the five
slot intervals. -/
theorem slot_locate (t s : ℚ) (q : ℚ) (h0 : slot_offset t s 0 ≤ q)
    (h5 : q ≤ slot_offset t s 5) :
    ∃ i : ℕ, i < 5 ∧ slot_offset t s i ≤ q ∧ q ≤ slot_offset t s (i + 1) := by
  by_cases h1 : q ≤ slot_offset t s 1
  · exact ⟨0, by decide, h0, h1⟩
  by_cases h2 : q ≤ slot_offset t s 2
  · exact ⟨1, by decide, le_of_not_le h1, h2⟩
  by_cases h3 : q ≤ slot_offset t s 3
  · exact ⟨2, by decide, le_of_not_le h2, h3⟩
  by_cases h4 : q ≤ slot_offset t s 4
  · exact ⟨3, by decide, le_of_not_le h3, h4⟩
  · exact ⟨4, by decide, le_of_not_le h4, h5⟩

/-- The cells of the border slots cover the outer square without the open
hole, and nothing else. -/
theorem border_cells_cover (base : vec2) (t s : ℚ) (ht : 0 < t) (hs : 0 < s) (x z : ℚ) :
    (∃ rc ∈ border_slots, (slot_rect base t s rc).mem x z)
      ↔ (ring_outer base t s).mem x z ∧ ¬ (ring_hole base t s).interior x z := by
  obtain ⟨A0, A1, A2, A3, A4, A5⟩ := slot_offset_values t s
  have hmono := (slot_offset_strictMono t s ht hs).monotone
  constructor
  · rintro ⟨⟨r, c⟩, hrc, ⟨⟨hx1, hx2⟩, ⟨hz1, hz2⟩⟩⟩
    rw [mem_border_slots] at hrc
    obtain ⟨hr, hc, hb⟩ := hrc
    simp only [slot_rect] at hx1 hx2 hz1 hz2 hr hc hb
    have hr0 : slot_offset t s 0 ≤ slot_offset t s r := hmono (Nat.zero_le _)
    have hr5 : slot_offset t s (r + 1) ≤ slot_offset t s 5 := hmono hr
    have hc0 : slot_offset t s 0 ≤ slot_offset t s c := hmono (Nat.zero_le _)
    have hc5 : slot_offset t s (c + 1) ≤ slot_offset t s 5 := hmono hc
    refine ⟨⟨⟨?_, ?_⟩, ⟨?_, ?_⟩⟩, ?_⟩
    · simp only [ring_outer]; linarith
    · simp only [ring_outer]; linarith
    · simp only [ring_outer]; linarith
    · simp only [ring_outer]; linarith
    · rintro ⟨⟨ix1, ix2⟩, ⟨iz1, iz2⟩⟩
      simp only [ring_hole] at ix1 ix2 iz1 iz2
      rcases hb with h | h | h | h
      · subst h
        rw [A1] at hx2; linarith
      · subst h
        rw [A4] at hx1; linarith
      · subst h
        rw [A1] at hz2; linarith
      · subst h
        rw [A4] at hz1; linarith
  · rintro ⟨⟨⟨ox1, ox2⟩, ⟨oz1, oz2⟩⟩, hnot⟩
    simp only [ring_outer] at ox1 ox2 oz1 oz2
    have hx0 : slot_offset t s 0 ≤ x - base.x := by rw [A0]; linarith
    have hx5 : x - base.x ≤ slot_offset t s 5 := by rw [A5]; linarith
    have hz0 : slot_offset t s 0 ≤ z - base.y := by rw [A0]; linarith
    have hz5 : z - base.y ≤ slot_offset t s 5 := by rw [A5]; linarith
    obtain ⟨r, hr, hr1, hr2⟩ := slot_locate t s (x - base.x) hx0 hx5
    obtain ⟨c, hc, hc1, hc2⟩ := slot_locate t s (z - base.y) hz0 hz5
    have hcases : x - base.x ≤ slot_offset t s 1 ∨ slot_offset t s 4 ≤ x - base.x
        ∨ z - base.y ≤ slot_offset t s 1 ∨ slot_offset t s 4 ≤ z - base.y := by
      by_contra hcon
      push_neg at hcon
      obtain ⟨c1, c2, c3, c4⟩ := hcon
      apply hnot
      simp only [Rect.interior, ring_hole]
      rw [A1] at c1 c3
      rw [A4] at c2 c4
      refine ⟨⟨?_, ?_⟩, ⟨?_, ?_⟩⟩ <;> linarith
    rcases hcases with h | h | h | h
    · refine ⟨(0, c), (mem_border_slots _).2 ⟨by norm_num, hc, Or.inl rfl⟩, ?_⟩
      simp only [Rect.mem, slot_rect]
      refine ⟨⟨?_, ?_⟩, ⟨?_, ?_⟩⟩ <;> linarith
    · refine ⟨(4, c), (mem_border_slots _).2 ⟨by norm_num, hc, Or.inr (Or.inl rfl)⟩, ?_⟩
      simp only [Rect.mem, slot_rect]
      refine ⟨⟨?_, ?_⟩, ⟨?_, ?_⟩⟩ <;> linarith
    · refine ⟨(r, 0), (mem_border_slots _).2 ⟨hr, by norm_num, Or.inr (Or.inr (Or.inl rfl))⟩, ?_⟩
      simp only [Rect.mem, slot_rect]
      refine ⟨⟨?_, ?_⟩, ⟨?_, ?_⟩⟩ <;> linarith
    · refine ⟨(r, 4), (mem_border_slots _).2 ⟨hr, by norm_num, Or.inr (Or.inr (Or.inr rfl))⟩, ?_⟩
      simp only [Rect.mem, slot_rect]
      refine ⟨⟨?_, ?_⟩, ⟨?_, ?_⟩⟩ <;> linarith

/-- With a tile of 3 segments of size 2 (`t = 6 * u`, `s = 2 * u` at scale `u`),
the footprint of the block drawn for a border slot is the cell of the slot. -/
theorem footprint_ring_call (base : vec2) (u t s : ℚ) (ht : t = 6 * u) (hs : s = 2 * u)
    (rc : ℕ × ℕ) (hrc : rc ∈ border_slots) :
    footprint ⟨slot_role (rc.1 : ℤ) (rc.2 : ℤ),
        ⟨base.x + slot_offset t s rc.1, base.y + slot_offset t s rc.2⟩, u, 0⟩
      = slot_rect base t s rc := by
  obtain ⟨A0, A1, A2, A3, A4, A5⟩ := slot_offset_values t s
  rw [border_slots_eq] at hrc
  fin_cases hrc <;>
    simp only [footprint, slot_rect, slot_role, block_args, Rect.mk.injEq] <;>
    norm_num [A0, A1, A2, A3, A4, A5] <;>
    (try constructor) <;> (try subst ht) <;> (try subst hs) <;> ring

/-- The vertices of a generated mesh span exactly the extent
`columns * size` along x and `rows * size` along z. -/
theorem mesh_extent (rows columns : ℕ) (size : ℚ) (hsize : 0 ≤ size) :
    (∀ v ∈ (generate_mesh [] [] (rows : ℤ) (columns : ℤ) size).1,
      (0 ≤ v.x ∧ v.x ≤ (columns : ℚ) * size) ∧ v.y = 0
        ∧ (0 ≤ v.z ∧ v.z ≤ (rows : ℚ) * size)) ∧
    (⟨0, 0, 0⟩ : vec3) ∈ (generate_mesh [] [] (rows : ℤ) (columns : ℤ) size).1 ∧
    (⟨(columns : ℚ) * size, 0, (rows : ℚ) * size⟩ : vec3)
      ∈ (generate_mesh [] [] (rows : ℤ) (columns : ℤ) size).1 := by
  have hr : ((rows : ℤ) + 1).toNat = rows + 1 := by omega
  have hc : ((columns : ℤ) + 1).toNat = columns + 1 := by omega
  rw [generate_mesh_vertices, hr, hc]
  refine ⟨?_, ?_, ?_⟩
  · intro v hv
    rcases List.mem_flatMap.1 hv with ⟨y, hy, hvy⟩
    rcases List.mem_map.1 hvy with ⟨x, hx, rfl⟩
    have hy' : (y : ℚ) ≤ (rows : ℚ) := by
      exact_mod_cast Nat.lt_succ_iff.1 (List.mem_range.1 hy)
    have hx' : (x : ℚ) ≤ (columns : ℚ) := by
      exact_mod_cast Nat.lt_succ_iff.1 (List.mem_range.1 hx)
    have hy0 : (0 : ℚ) ≤ (y : ℚ) := Nat.cast_nonneg y
    have hx0 : (0 : ℚ) ≤ (x : ℚ) := Nat.cast_nonneg x
    refine ⟨⟨mul_nonneg hx0 hsize, mul_le_mul_of_nonneg_right hx' hsize⟩, rfl,
      ⟨mul_nonneg hy0 hsize, mul_le_mul_of_nonneg_right hy' hsize⟩⟩
  · refine List.mem_flatMap.2 ⟨0, List.mem_range.2 (Nat.succ_pos _), ?_⟩
    refine List.mem_map.2 ⟨0, List.mem_range.2 (Nat.succ_pos _), ?_⟩
    simp
  · refine List.mem_flatMap.2 ⟨rows, List.mem_range.2 (Nat.lt_succ_self _), ?_⟩
    exact List.mem_map.2 ⟨columns, List.mem_range.2 (Nat.lt_succ_self _), rfl⟩

theorem block_new_ok (r c : ℕ) (size : ℚ) (hr : 1 ≤ r) :
    Block.new (r : ℤ) (c : ℤ) size
      = Except.ok ⟨(generate_mesh [] [] (r : ℤ) (c : ℤ) size).1,
          (generate_mesh [] [] (r : ℤ) (c : ℤ) size).2,
          (generate_mesh [] [] (r : ℤ) (c : ℤ) size).2.length % 2 ^ 32⟩ := by
  have hipos : (generate_mesh [] [] (r : ℤ) (c : ℤ) size).2.length > 0 := by
    rw [generate_mesh_indices_length]; exact Nat.mul_pos hr (by omega)
  have hvpos : (generate_mesh [] [] (r : ℤ) (c : ℤ) size).1.length > 0 := by
    rw [generate_mesh_vertices_length]
    have h1 : ((r : ℤ) + 1).toNat = r + 1 := by omega
    have h2 : ((c : ℤ) + 1).toNat = c + 1 := by omega
    rw [h1, h2]; exact Nat.mul_pos (by omega) (by omega)
  unfold Block.new
  simp only [hipos, hvpos, and_self, if_true]

/-- Each block member is constructed, and its vertices span the extent
`columns * size` along x and `rows * size` along z, from the origin. -/
theorem block_member_extent (shape : BlockShape) :
    ∃ b : Block, block_member shape = Except.ok b ∧
      (∀ v ∈ b.vertices,
        (0 ≤ v.x ∧ v.x ≤ ((block_args shape).2.1 : ℚ) * (block_args shape).2.2) ∧
        (0 ≤ v.z ∧ v.z ≤ ((block_args shape).1 : ℚ) * (block_args shape).2.2)) ∧
      (⟨0, 0, 0⟩ : vec3) ∈ b.vertices ∧
      (⟨((block_args shape).2.1 : ℚ) * (block_args shape).2.2, 0,
        ((block_args shape).1 : ℚ) * (block_args shape).2.2⟩ : vec3) ∈ b.vertices := by
  have key : ∀ (r c : ℕ), 1 ≤ r →
      ∃ b : Block, Block.new (r : ℤ) (c : ℤ) 2 = Except.ok b ∧
        (∀ v ∈ b.vertices,
          (0 ≤ v.x ∧ v.x ≤ (((c : ℕ) : ℤ) : ℚ) * 2) ∧
          (0 ≤ v.z ∧ v.z ≤ (((r : ℕ) : ℤ) : ℚ) * 2)) ∧
        (⟨0, 0, 0⟩ : vec3) ∈ b.vertices ∧
        (⟨(((c : ℕ) : ℤ) : ℚ) * 2, 0, (((r : ℕ) : ℤ) : ℚ) * 2⟩ : vec3) ∈ b.vertices := by
    intro r c hr
    obtain ⟨h1, h2, h3⟩ := mesh_extent r c 2 (by norm_num)
    refine ⟨_, block_new_ok r c 2 hr, ?_, h2, ?_⟩
    · intro v hv
      obtain ⟨hx, _, hz⟩ := h1 v hv
      simp only [Int.cast_natCast]
      exact ⟨hx, hz⟩
    · simp only [Int.cast_natCast]
      exact h3
  cases shape
  · exact key 3 3 (by decide)
  · exact key 2 3 (by decide)
  · exact key 3 2 (by decide)
  · exact key 8 1 (by decide)
  · exact key 1 7 (by decide)

/-! ## The connector against the finer ring -/

/-- With the reference parameters the base of level `l - 1` lies `6 * 2^l` or
`8 * 2^l` past the base of level `l`, in each coordinate. -/
theorem reference_base_offset (l : ℤ) (p : vec2) :
    ((calc_base reference (l - 1) p).x - (calc_base reference l p).x = 6 * (2 : ℚ) ^ l ∨
     (calc_base reference (l - 1) p).x - (calc_base reference l p).x = 8 * (2 : ℚ) ^ l) ∧
    ((calc_base reference (l - 1) p).y - (calc_base reference l p).y = 6 * (2 : ℚ) ^ l ∨
     (calc_base reference (l - 1) p).y - (calc_base reference l p).y = 8 * (2 : ℚ) ^ l) := by
  have h2 : pow2 (l + 1) = 2 * (2 : ℚ) ^ l := pow2_succ l
  have h6 : (reference.segments : ℚ) * reference.segment_size * pow2 l
      = 6 * (2 : ℚ) ^ l := by
    norm_num [reference, pow2]
  have key : ∀ q : ℚ,
      (((⌊q / pow2 (l - 1 + 2)⌋ : ℤ) : ℚ) * pow2 (l - 1 + 2)
          - (reference.segments : ℚ) * reference.segment_size * pow2 (l - 1) * 2)
        - (((⌊q / pow2 (l + 2)⌋ : ℤ) : ℚ) * pow2 (l + 2)
          - (reference.segments : ℚ) * reference.segment_size * pow2 l * 2)
        = 6 * (2 : ℚ) ^ l ∨
      (((⌊q / pow2 (l - 1 + 2)⌋ : ℤ) : ℚ) * pow2 (l - 1 + 2)
          - (reference.segments : ℚ) * reference.segment_size * pow2 (l - 1) * 2)
        - (((⌊q / pow2 (l + 2)⌋ : ℤ) : ℚ) * pow2 (l + 2)
          - (reference.segments : ℚ) * reference.segment_size * pow2 l * 2)
        = 8 * (2 : ℚ) ^ l := by
    intro q
    rcases prev_base_offset reference l q with h | h
    · left; rw [h, h6]
    · right; rw [h, h6, h2]; ring
  exact ⟨key p.x, key p.y⟩

/-- The footprint of the horizontal connector of level `l`, with the reference
parameters. -/
theorem connector_footprint (l : ℤ) (p : vec2) :
    footprint (connector_call reference p l)
      = ⟨(calc_base reference l p).x + (6 * (2 : ℚ) ^ l
            + (if (calc_base reference (l - 1) p).x - (calc_base reference l p).x
                  = 6 * (2 : ℚ) ^ l then 14 * (2 : ℚ) ^ l else 0)),
         (calc_base reference l p).x + (6 * (2 : ℚ) ^ l
            + (if (calc_base reference (l - 1) p).x - (calc_base reference l p).x
                  = 6 * (2 : ℚ) ^ l then 14 * (2 : ℚ) ^ l else 0)) + 2 * (2 : ℚ) ^ l,
         (calc_base reference l p).y + 6 * (2 : ℚ) ^ l,
         (calc_base reference l p).y + 22 * (2 : ℚ) ^ l⟩ := by
  have hu : 0 < (2 : ℚ) ^ l := pow2_pos l
  have h6 : (reference.segments : ℚ) * reference.segment_size * (2 : ℚ) ^ l
      = 6 * (2 : ℚ) ^ l := by
    norm_num [reference]
  have h14 : 7 * reference.segment_size * (2 : ℚ) ^ l = 14 * (2 : ℚ) ^ l := by
    norm_num [reference]
  have habs : (|(calc_base reference l p).x - (calc_base reference (l - 1) p).x|
        = 6 * (2 : ℚ) ^ l)
      ↔ ((calc_base reference (l - 1) p).x - (calc_base reference l p).x
        = 6 * (2 : ℚ) ^ l) := by
    rcases (reference_base_offset l p).1 with h | h
    · have e : (calc_base reference l p).x - (calc_base reference (l - 1) p).x
          = -(6 * (2 : ℚ) ^ l) := by linarith
      rw [e, abs_neg, abs_of_pos (by linarith)]
      exact ⟨fun _ => h, fun _ => rfl⟩
    · have e : (calc_base reference l p).x - (calc_base reference (l - 1) p).x
          = -(8 * (2 : ℚ) ^ l) := by linarith
      rw [e, abs_neg, abs_of_pos (by linarith)]
      constructor
      · intro h'; linarith
      · intro h'; linarith
  simp only [footprint, connector_call, block_args, h6, h14, habs, Rect.mk.injEq]
  refine ⟨trivial, ?_, trivial, ?_⟩
  · norm_num
    ring
  · norm_num
    ring

/-- No interior point of the cell of a border slot lies in the closed hole. -/
theorem border_cell_interior_not_hole (base : vec2) (t s : ℚ) (rc : ℕ × ℕ)
    (hrc : rc ∈ border_slots) (x z : ℚ) (hin : (slot_rect base t s rc).interior x z) :
    ¬ (ring_hole base t s).mem x z := by
  obtain ⟨_, A1, _, _, A4, _⟩ := slot_offset_values t s
  obtain ⟨⟨ix1, ix2⟩, ⟨iz1, iz2⟩⟩ := hin
  rintro ⟨⟨hx1, hx2⟩, ⟨hz1, hz2⟩⟩
  simp only [slot_rect] at ix1 ix2 iz1 iz2
  simp only [ring_hole] at hx1 hx2 hz1 hz2
  obtain ⟨_, _, hb⟩ := (mem_border_slots rc).1 hrc
  rcases hb with h | h | h | h
  · rw [h, A1] at ix2; linarith
  · rw [h, A4] at ix1; linarith
  · rw [h, A1] at iz2; linarith
  · rw [h, A4] at iz1; linarith

/-! ## Mesh topology -/

/-- C3: `generate_mesh rows columns size` produces exactly
`(rows+1) * (columns+1)` vertices in row-major order, the vertex at position
`y * (columns+1) + x` being `(x * size, 0, y * size)` for `y ≤ rows`,
`x ≤ columns`; the first vertex is the origin; for `rows = 3`, `columns = 2`
there are 12 vertices; the previous content of the vertex list is discarded.
(Proved for all natural `rows`, `columns`, in particular for those `≥ 1`.) -/
theorem generate_mesh_vertex_grid (vs : List vec3) (is : List ℕ) (rows columns : ℕ)
    (size : ℚ) :
    (generate_mesh vs is (rows : ℤ) (columns : ℤ) size).1.length
        = (rows + 1) * (columns + 1) ∧
    (∀ y x : ℕ, y ≤ rows → x ≤ columns →
      (generate_mesh vs is (rows : ℤ) (columns : ℤ) size).1[y * (columns + 1) + x]?
        = some (⟨(x : ℚ) * size, 0, (y : ℚ) * size⟩ : vec3)) ∧
    (generate_mesh vs is (rows : ℤ) (columns : ℤ) size).1.head? = some ⟨0, 0, 0⟩ ∧
    (generate_mesh vs is 3 2 size).1.length = 12 ∧
    (generate_mesh vs is (rows : ℤ) (columns : ℤ) size).1
        = (generate_mesh [] [] (rows : ℤ) (columns : ℤ) size).1 := by
  have hr : ((rows : ℤ) + 1).toNat = rows + 1 := by omega
  have hc : ((columns : ℤ) + 1).toNat = columns + 1 := by omega
  have hlen : ∀ k : ℕ, ((List.range (columns + 1)).map (fun (x : ℕ) =>
      (⟨(x : ℚ) * size, 0, (k : ℚ) * size⟩ : vec3))).length = columns + 1 := by
    intro k; simp
  have hget : ∀ y x : ℕ, y ≤ rows → x ≤ columns →
      (generate_mesh vs is (rows : ℤ) (columns : ℤ) size).1[y * (columns + 1) + x]?
        = some (⟨(x : ℚ) * size, 0, (y : ℚ) * size⟩ : vec3) := by
    intro y x hy hx
    rw [generate_mesh_vertices, hr, hc,
      getElem?_flatMap_range _ (columns + 1) hlen (rows + 1) y x (by omega) (by omega),
      List.getElem?_map, List.getElem?_range (by omega)]
    rfl
  refine ⟨?_, hget, ?_, ?_, ?_⟩
  · rw [generate_mesh_vertices, hr, hc, length_flatMap_range _ (columns + 1) hlen]
  · have h0 := hget 0 0 (Nat.zero_le _) (Nat.zero_le _)
    rw [List.head?_eq_getElem?]
    simpa using h0
  · have h32 : (generate_mesh vs is 3 2 size).1
        = (generate_mesh vs is ((3 : ℕ) : ℤ) ((2 : ℕ) : ℤ) size).1 := rfl
    rw [h32, generate_mesh_vertices]
    simp [List.range_succ]
  · rw [generate_mesh_vertices, generate_mesh_vertices]

/-- Witness for C3 at `rows = 3`, `columns = 2`, `size = 1`: the vertex of row 1,
column 2 sits at position 5. -/
theorem generate_mesh_vertex_grid_witness :
    (generate_mesh [] [] ((3 : ℕ) : ℤ) ((2 : ℕ) : ℤ) 1).1[1 * (2 + 1) + 2]?
      = some (⟨((2 : ℕ) : ℚ) * 1, 0, ((1 : ℕ) : ℚ) * 1⟩ : vec3) :=
  (generate_mesh_vertex_grid [] [] 3 2 1).2.1 1 2 (by decide) (by decide)

/-- C4: the index list of `generate_mesh rows columns` has length
`rows * (2 * (columns+1) + 1)` (21 for `rows = 3`, `columns = 2`) and is the
concatenation, for `r = 0 .. rows-1` in order, of the run
`[r*(columns+1)+c, (r+1)*(columns+1)+c  for c = 0 .. columns]` followed by the
restart index `0xFFFF`; each run holds `2 * (columns+1)` real indices, an even
number, before its restart index. (Proved for all natural `rows`, `columns`.) -/
theorem generate_mesh_index_runs (vs : List vec3) (is : List ℕ) (rows columns : ℕ)
    (size : ℚ) :
    (generate_mesh vs is (rows : ℤ) (columns : ℤ) size).2.length
        = rows * (2 * (columns + 1) + 1) ∧
    (generate_mesh vs is 3 2 size).2.length = 21 ∧
    (generate_mesh vs is (rows : ℤ) (columns : ℤ) size).2
        = (List.range rows).flatMap (fun r =>
            (List.range (columns + 1)).flatMap
              (fun c => [r * (columns + 1) + c, (r + 1) * (columns + 1) + c])
            ++ [0xFFFF]) ∧
    (∀ r : ℕ, ((List.range (columns + 1)).flatMap
        (fun c => [r * (columns + 1) + c, (r + 1) * (columns + 1) + c])).length
          = 2 * (columns + 1)) ∧
    Even (2 * (columns + 1)) := by
  refine ⟨?_, ?_, ?_, ?_, even_two_mul _⟩
  · exact generate_mesh_indices_length vs is rows columns size
  · have h32 : (generate_mesh vs is 3 2 size).2
        = (generate_mesh vs is ((3 : ℕ) : ℤ) ((2 : ℕ) : ℤ) size).2 := rfl
    rw [h32, generate_mesh_indices,
      length_flatMap_range _ _ (index_run_length 2)]
  · rw [generate_mesh_indices]
    rfl
  · intro r
    rw [length_flatMap_range (fun c => [r * (columns + 1) + c, (r + 1) * (columns + 1) + c]) 2 (fun _ => rfl)]
    ring

/-- C5, the claim as stated fails: for `rows = 1`, `columns = 65534` the index
list holds the value `0xFFFF` twice, not once; position 1, the bottom vertex of
column 0 (index `1 * 65535 + 0`), is a real vertex index equal to the restart
index. -/
theorem restart_collides_with_real_index :
    List.count primitive_restart (generate_mesh [] [] 1 65534 1).2 ≠ 1 ∧
    (generate_mesh [] [] 1 65534 1).2[1]? = some primitive_restart := by
  have hcast : (generate_mesh [] [] 1 65534 1).2
      = (generate_mesh [] [] ((1 : ℕ) : ℤ) ((65534 : ℕ) : ℤ) 1).2 := rfl
  have hpos : (generate_mesh [] [] 1 65534 1).2[1]? = some primitive_restart := by
    rw [hcast]
    have h := generate_mesh_indices_getElem? [] [] 1 65534 1 0 1 (by omega) (by omega)
    have h' := index_run_real 65534 0 0 1 (by omega) (by omega)
    simp only [Nat.zero_mul, Nat.zero_add, Nat.mul_zero] at h h'
    rw [h, h']
    rfl
  refine ⟨?_, hpos⟩
  have hidx : (generate_mesh [] [] 1 65534 1).2 = index_run 65534 0 := by
    rw [hcast, generate_mesh_indices]
    have h1 : List.range 1 = [0] := rfl
    rw [h1]
    simp only [List.flatMap_cons, List.flatMap_nil, List.append_nil]
  have hmem : primitive_restart ∈ (List.range (65534 + 1)).flatMap
      (fun c => [0 * (65534 + 1) + c, (0 + 1) * (65534 + 1) + c]) :=
    List.mem_flatMap.2 ⟨0, List.mem_range.2 (by omega), by simp [primitive_restart]⟩
  have hpos' := List.count_pos_iff.2 hmem
  rw [hidx, index_run, List.count_append, List.count_singleton_self]
  omega

/-- C5, amended: when the vertex count `(rows+1) * (columns+1)` is at most
`0xFFFF`, the restart index occurs exactly `rows` times in the index list of
`generate_mesh rows columns`, and a position holds it exactly when it is the
last position of a row's run; so no real vertex index equals it. -/
theorem restart_only_ends_runs (vs : List vec3) (is : List ℕ) (rows columns : ℕ)
    (size : ℚ) (hcap : (rows + 1) * (columns + 1) ≤ 0xFFFF) :
    List.count primitive_restart (generate_mesh vs is (rows : ℤ) (columns : ℤ) size).2
        = rows ∧
    (∀ i : ℕ,
      (generate_mesh vs is (rows : ℤ) (columns : ℤ) size).2[i]? = some primitive_restart
        ↔ i < rows * (2 * (columns + 1) + 1)
            ∧ i % (2 * (columns + 1) + 1) = 2 * (columns + 1)) := by
  refine ⟨?_, fun i => ?_⟩
  · rw [generate_mesh_indices]
    exact count_restart_runs rows columns rows le_rfl hcap
  · have hlen := generate_mesh_indices_length vs is rows columns size
    have hL : 0 < 2 * (columns + 1) + 1 := by omega
    have hdm := Nat.div_add_mod i (2 * (columns + 1) + 1)
    have hmodlt := Nat.mod_lt i hL
    have hrlt : i < rows * (2 * (columns + 1) + 1) →
        i / (2 * (columns + 1) + 1) < rows := fun h =>
      (Nat.div_lt_iff_lt_mul hL).2 h
    have hsplit : i = i / (2 * (columns + 1) + 1) * (2 * (columns + 1) + 1)
        + i % (2 * (columns + 1) + 1) := by
      rw [Nat.mul_comm]; exact hdm.symm
    constructor
    · intro h
      have hi : i < rows * (2 * (columns + 1) + 1) := by
        rcases List.getElem?_eq_some.1 h with ⟨hlt, _⟩
        rw [hlen] at hlt
        exact hlt
      refine ⟨hi, ?_⟩
      by_contra hne
      have hj : i % (2 * (columns + 1) + 1) < 2 * (columns + 1) := by omega
      rw [hsplit, generate_mesh_indices_getElem? vs is rows columns size _ _ (hrlt hi) hmodlt]
        at h
      have hje : i % (2 * (columns + 1) + 1)
          = 2 * (i % (2 * (columns + 1) + 1) / 2) + i % (2 * (columns + 1) + 1) % 2 :=
        (Nat.div_add_mod _ 2).symm
      rw [hje, index_run_real columns _ _ _ (by omega) (Nat.mod_lt _ (by decide))] at h
      have hb := real_index_lt rows columns (i / (2 * (columns + 1) + 1))
        (i % (2 * (columns + 1) + 1) / 2) (i % (2 * (columns + 1) + 1) % 2) (hrlt hi)
        (by omega) (Nat.mod_lt _ (by decide))
      simp only [Option.some.injEq, primitive_restart] at h
      omega
    · rintro ⟨hi, hmod⟩
      rw [hsplit, generate_mesh_indices_getElem? vs is rows columns size _ _ (hrlt hi) hmodlt,
        hmod, index_run_last]

/-- Witness for C5 (amended) at the reference tile, `rows = columns = 3`. -/
theorem restart_only_ends_runs_witness :
    (3 + 1) * (3 + 1) ≤ 0xFFFF ∧
    List.count primitive_restart (generate_mesh [] [] ((3 : ℕ) : ℤ) ((3 : ℕ) : ℤ) 2).2 = 3 :=
  ⟨by decide, (restart_only_ends_runs [] [] 3 3 2 (by decide)).1⟩

/-! ## Alignment of adjacent levels -/

/-- C2, the claim as stated fails: with the reference parameters, level 1 and
viewer `(4, 4)`, the bases are `(-24, -24)` and `(-8, -8)`; the distance 16 is
neither 0 nor `tile_size(1) = 12`. -/
theorem base_offset_not_zero_or_tile :
    ¬ (|(calc_base reference 1 ⟨4, 4⟩).x - (calc_base reference 0 ⟨4, 4⟩).x| = 0 ∨
       |(calc_base reference 1 ⟨4, 4⟩).x - (calc_base reference 0 ⟨4, 4⟩).x|
          = (reference.segments : ℚ) * reference.segment_size * (2 : ℚ) ^ (1 : ℤ)) := by
  have h1 : (calc_base reference 1 ⟨4, 4⟩).x = -24 := by
    simp [calc_base, reference, vec2.subs, vec2.muls, vec2.floor, vec2.divs, pow2]
    norm_num
  have h0 : (calc_base reference 0 ⟨4, 4⟩).x = -8 := by
    simp [calc_base, reference, vec2.subs, vec2.muls, vec2.floor, vec2.divs, pow2]
    norm_num
  rw [h1, h0]
  norm_num [reference, abs_of_neg]

/-- C2, amended: for every level `l` and viewer position `p`, each component of
`|calc_base l p - calc_base (l-1) p|` is either `tile_size(l)` or
`tile_size(l) + 2^(l+1)`, where `tile_size(l) = segments * segment_size * 2^l`
is non-negative, and never any other value; when `segments * segment_size` is
positive, as for the reference parameters, it is in particular never 0. With
the reference parameters the two values are `6 * 2^l` and `8 * 2^l`. -/
theorem base_offset_values (self : Params) (l : ℤ) (p : vec2)
    (hpos : 0 ≤ (self.segments : ℚ) * self.segment_size) :
    ((|(calc_base self l p).x - (calc_base self (l - 1) p).x|
        = (self.segments : ℚ) * self.segment_size * (2 : ℚ) ^ l ∨
      |(calc_base self l p).x - (calc_base self (l - 1) p).x|
        = (self.segments : ℚ) * self.segment_size * (2 : ℚ) ^ l + (2 : ℚ) ^ (l + 1)) ∧
     (|(calc_base self l p).y - (calc_base self (l - 1) p).y|
        = (self.segments : ℚ) * self.segment_size * (2 : ℚ) ^ l ∨
      |(calc_base self l p).y - (calc_base self (l - 1) p).y|
        = (self.segments : ℚ) * self.segment_size * (2 : ℚ) ^ l + (2 : ℚ) ^ (l + 1))) ∧
    (0 < (self.segments : ℚ) * self.segment_size →
      |(calc_base self l p).x - (calc_base self (l - 1) p).x| ≠ 0 ∧
      |(calc_base self l p).y - (calc_base self (l - 1) p).y| ≠ 0) ∧
    ((|(calc_base reference l p).x - (calc_base reference (l - 1) p).x| = 6 * (2 : ℚ) ^ l ∨
      |(calc_base reference l p).x - (calc_base reference (l - 1) p).x| = 8 * (2 : ℚ) ^ l) ∧
     (|(calc_base reference l p).y - (calc_base reference (l - 1) p).y| = 6 * (2 : ℚ) ^ l ∨
      |(calc_base reference l p).y - (calc_base reference (l - 1) p).y| = 8 * (2 : ℚ) ^ l) ∧
     |(calc_base reference l p).x - (calc_base reference (l - 1) p).x| ≠ 0 ∧
     |(calc_base reference l p).y - (calc_base reference (l - 1) p).y| ≠ 0) := by
  have hu : 0 < (2 : ℚ) ^ l := pow2_pos l
  have hT : 0 ≤ (self.segments : ℚ) * self.segment_size * pow2 l :=
    mul_nonneg hpos (pow2_pos l).le
  have hP : 0 < pow2 (l + 1) := pow2_pos _
  have key : ∀ q : ℚ,
      |(((⌊q / pow2 (l + 2)⌋ : ℤ) : ℚ) * pow2 (l + 2)
          - (self.segments : ℚ) * self.segment_size * pow2 l * 2)
        - (((⌊q / pow2 (l - 1 + 2)⌋ : ℤ) : ℚ) * pow2 (l - 1 + 2)
          - (self.segments : ℚ) * self.segment_size * pow2 (l - 1) * 2)|
        = (self.segments : ℚ) * self.segment_size * pow2 l ∨
      |(((⌊q / pow2 (l + 2)⌋ : ℤ) : ℚ) * pow2 (l + 2)
          - (self.segments : ℚ) * self.segment_size * pow2 l * 2)
        - (((⌊q / pow2 (l - 1 + 2)⌋ : ℤ) : ℚ) * pow2 (l - 1 + 2)
          - (self.segments : ℚ) * self.segment_size * pow2 (l - 1) * 2)|
        = (self.segments : ℚ) * self.segment_size * pow2 l + pow2 (l + 1) := by
    intro q
    rw [abs_sub_comm]
    rcases prev_base_offset self l q with h | h
    · left; rw [h]; exact abs_of_nonneg hT
    · right; rw [h]; exact abs_of_nonneg (by linarith)
  have hvals :
      (|(calc_base self l p).x - (calc_base self (l - 1) p).x|
          = (self.segments : ℚ) * self.segment_size * (2 : ℚ) ^ l ∨
        |(calc_base self l p).x - (calc_base self (l - 1) p).x|
          = (self.segments : ℚ) * self.segment_size * (2 : ℚ) ^ l + (2 : ℚ) ^ (l + 1)) ∧
      (|(calc_base self l p).y - (calc_base self (l - 1) p).y|
          = (self.segments : ℚ) * self.segment_size * (2 : ℚ) ^ l ∨
        |(calc_base self l p).y - (calc_base self (l - 1) p).y|
          = (self.segments : ℚ) * self.segment_size * (2 : ℚ) ^ l + (2 : ℚ) ^ (l + 1)) :=
    ⟨key p.x, key p.y⟩
  have hP' : 0 < (2 : ℚ) ^ (l + 1) := pow2_pos (l + 1)
  have refabs : ∀ a b : ℚ, (b - a = 6 * (2 : ℚ) ^ l ∨ b - a = 8 * (2 : ℚ) ^ l) →
      (|a - b| = 6 * (2 : ℚ) ^ l ∨ |a - b| = 8 * (2 : ℚ) ^ l) ∧ |a - b| ≠ 0 := by
    intro a b h
    rw [abs_sub_comm]
    rcases h with h | h
    · rw [h, abs_of_pos (by linarith)]
      exact ⟨Or.inl rfl, by linarith⟩
    · rw [h, abs_of_pos (by linarith)]
      exact ⟨Or.inr rfl, by linarith⟩
  obtain ⟨rx, ry⟩ := reference_base_offset l p
  refine ⟨hvals, ?_, (refabs _ _ rx).1, (refabs _ _ ry).1, (refabs _ _ rx).2,
    (refabs _ _ ry).2⟩
  intro hstrict
  have hTpos : 0 < (self.segments : ℚ) * self.segment_size * (2 : ℚ) ^ l :=
    mul_pos hstrict hu
  obtain ⟨hx, hy⟩ := hvals
  constructor
  · rcases hx with h | h <;> rw [h] <;> linarith
  · rcases hy with h | h <;> rw [h] <;> linarith

/-- Witness for C2 (amended) at the reference parameters, level 1, viewer `(4, 4)`. -/
theorem base_offset_values_witness :
    0 ≤ (reference.segments : ℚ) * reference.segment_size ∧
    (|(calc_base reference 1 ⟨4, 4⟩).x - (calc_base reference (1 - 1) ⟨4, 4⟩).x|
        = (reference.segments : ℚ) * reference.segment_size * (2 : ℚ) ^ (1 : ℤ) ∨
     |(calc_base reference 1 ⟨4, 4⟩).x - (calc_base reference (1 - 1) ⟨4, 4⟩).x|
        = (reference.segments : ℚ) * reference.segment_size * (2 : ℚ) ^ (1 : ℤ)
          + (2 : ℚ) ^ ((1 : ℤ) + 1)) ∧
    |(calc_base reference 1 ⟨4, 4⟩).x - (calc_base reference (1 - 1) ⟨4, 4⟩).x| ≠ 0 :=
  ⟨by norm_num [reference],
   (base_offset_values reference 1 ⟨4, 4⟩ (by norm_num [reference])).1.1,
   ((base_offset_values reference 1 ⟨4, 4⟩ (by norm_num [reference])).2.1
      (by norm_num [reference])).1⟩

/-- C10, the claim as stated fails: at level 0 with the reference parameters
the bases for viewers `(4, 0)` and `(0, 0)` differ by 4 in `x`, which is not an
integer multiple of `4 * tile_size(0) = 24`. -/
theorem base_step_not_four_tiles :
    ¬ ∃ k : ℤ, (calc_base reference 0 ⟨4, 0⟩).x - (calc_base reference 0 ⟨0, 0⟩).x
        = (k : ℚ) * (4 * (reference.segments : ℚ) * reference.segment_size
            * (2 : ℚ) ^ (0 : ℤ)) := by
  have h1 : (calc_base reference 0 ⟨4, 0⟩).x = -8 := by
    simp [calc_base, reference, vec2.subs, vec2.muls, vec2.floor, vec2.divs, pow2]
    norm_num
  have h0 : (calc_base reference 0 ⟨0, 0⟩).x = -12 := by
    simp [calc_base, reference, vec2.subs, vec2.muls, vec2.floor, vec2.divs, pow2]
    norm_num
  rw [h1, h0]
  rintro ⟨k, hk⟩
  have hk' : (4 : ℚ) = ((24 * k : ℤ) : ℚ) := by
    push_cast
    norm_num [reference] at hk
    linarith
  have hk'' : (4 : ℤ) = 24 * k := by exact_mod_cast hk'
  omega

/-- C10, amended: for a fixed level `l` the base moves in steps of
`2^(l+2)` (the snapping grid `next_scale`): for all viewer positions `p1`, `p2`
each component of `calc_base l p1 - calc_base l p2` is an integer multiple of
`2^(l+2)`. -/
theorem base_step_multiple (self : Params) (l : ℤ) (p1 p2 : vec2) :
    (∃ k : ℤ, (calc_base self l p1).x - (calc_base self l p2).x
        = (k : ℚ) * (2 : ℚ) ^ (l + 2)) ∧
    (∃ k : ℤ, (calc_base self l p1).y - (calc_base self l p2).y
        = (k : ℚ) * (2 : ℚ) ^ (l + 2)) := by
  constructor
  · refine ⟨⌊p1.x / pow2 (l + 2)⌋ - ⌊p2.x / pow2 (l + 2)⌋, ?_⟩
    simp only [calc_base, vec2.subs, vec2.muls, vec2.floor, vec2.divs, pow2]
    push_cast
    ring
  · refine ⟨⌊p1.y / pow2 (l + 2)⌋ - ⌊p2.y / pow2 (l + 2)⌋, ?_⟩
    simp only [calc_base, vec2.subs, vec2.muls, vec2.floor, vec2.divs, pow2]
    push_cast
    ring

/-! ## The per-frame assembly -/

/-- C6: in the 5 x 5 slot grid walked by `draw`, the step for slot `(r, c)`
issues a draw exactly when the slot lies on the outer border (`r ∈ {0, 4}` or
`c ∈ {0, 4}`), and then with the role: column fixup iff `c = 2`, row fixup iff
`r = 2` (and `c ≠ 2`), regular tile otherwise. The whole walk issues 16 draws,
one per border slot in row-major order; 9 slots are skipped; there are 12
tiles, the 2 column fixups are at `(0,2)`, `(4,2)` and the 2 row fixups at
`(2,0)`, `(2,4)`. -/
theorem slot_classification (base : vec2) (scale s t : ℚ) :
    (∀ (r c : ℤ) (st : DrawState),
      (draw_slot 5 5 base scale s t r c st).calls
        = st.calls ++
            (if (r = 0 ∨ r = 4) ∨ (c = 0 ∨ c = 4) then
              [(⟨if c = 2 then BlockShape.col_fixup
                  else if r = 2 then BlockShape.row_fixup else BlockShape.tile,
                 base.add st.offset, scale, 0⟩ : DrawCall)]
             else [])) ∧
    ((forLoop 0 5 (draw_row 5 5 base scale s t) ⟨⟨0, 0⟩, []⟩).calls.map DrawCall.block
        = border_slots.map (fun rc => slot_role (rc.1 : ℤ) (rc.2 : ℤ))) ∧
    (forLoop 0 5 (draw_row 5 5 base scale s t) ⟨⟨0, 0⟩, []⟩).calls.length = 16 ∧
    border_slots.length = 16 ∧
    (((List.range 5).flatMap (fun r => (List.range 5).map (fun c => (r, c)))).filter
        (fun rc => ¬ (rc.1 = 0 ∨ rc.1 = 4 ∨ rc.2 = 0 ∨ rc.2 = 4))).length = 9 ∧
    (border_slots.filter
        (fun rc => slot_role (rc.1 : ℤ) (rc.2 : ℤ) = BlockShape.tile)).length = 12 ∧
    border_slots.filter (fun rc => slot_role (rc.1 : ℤ) (rc.2 : ℤ) = BlockShape.col_fixup)
        = [(0, 2), (4, 2)] ∧
    border_slots.filter (fun rc => slot_role (rc.1 : ℤ) (rc.2 : ℤ) = BlockShape.row_fixup)
        = [(2, 0), (2, 4)] := by
  refine ⟨?_, ?_, ?_, ?_, ?_, ?_, ?_, ?_⟩
  · rintro r c ⟨⟨x, y⟩, calls⟩
    rw [draw_slot_mk]
    rfl
  · rw [slot_walk, List.nil_append, ring_calls, List.map_map]
    rfl
  · rw [slot_walk, List.nil_append, ring_calls_length]
  · rw [border_slots_eq]; rfl
  · decide
  · rw [border_slots_eq]; decide
  · rw [border_slots_eq]; decide
  · rw [border_slots_eq]; decide

/-- C7: for every level `l > min_level` the level's draws contain exactly one
horizontal connector, placed at `calc_base l p + (tile_size + k, tile_size)`
with scale `2^l` and no rotation, where `k = 7 * segment_size * 2^l` if
`|calc_base l p .x - calc_base (l-1) p .x| = tile_size(l)` and `k = 0`
otherwise; at level `min_level` there is none. In a whole non-shadow `draw`
with `levels = L` (where `min_level = 0`) the connectors are those of the
levels `1 .. L`, in order. -/
theorem connector_placement (self : Params) (p : vec2) :
    (∀ min_level l : ℤ, min_level < l →
      (draw_level self min_level p l []).filter (fun d => d.block = BlockShape.horizontal)
        = [(⟨BlockShape.horizontal,
            ⟨(calc_base self l p).x
                + ((self.segments : ℚ) * self.segment_size * (2 : ℚ) ^ l
                  + (if |(calc_base self l p).x - (calc_base self (l - 1) p).x|
                        = (self.segments : ℚ) * self.segment_size * (2 : ℚ) ^ l
                      then 7 * self.segment_size * (2 : ℚ) ^ l else 0)),
             (calc_base self l p).y
                + (self.segments : ℚ) * self.segment_size * (2 : ℚ) ^ l⟩,
            (2 : ℚ) ^ l, 0⟩ : DrawCall)]) ∧
    (∀ min_level : ℤ,
      (draw_level self min_level p min_level []).filter
        (fun d => d.block = BlockShape.horizontal) = []) ∧
    (∀ (L : ℕ) (h : ℚ),
      (draw ⟨(L : ℤ), self.segments, self.segment_size⟩ false ⟨p.x, h, p.y⟩).filter
          (fun d => d.block = BlockShape.horizontal)
        = (List.range L).map (fun (k : ℕ) =>
            connector_call ⟨(L : ℤ), self.segments, self.segment_size⟩ p ((k : ℤ) + 1))) := by
  refine ⟨?_, ?_, ?_⟩
  · intro min_level l hl
    rw [draw_level_eq, List.nil_append, filter_horizontal_level, if_pos hl]
    rfl
  · intro min_level
    rw [draw_level_eq, List.nil_append, filter_horizontal_level, if_neg (lt_irrefl _)]
  · intro L h
    rw [draw_eq]
    have hL : ((L : ℤ) + 1).toNat = L + 1 := by omega
    simp only [hL]
    exact levels_filter_horizontal _ p L

/-- Witness for C7 at the reference parameters: level 1 above `min_level = 0`,
viewer `(0, 0)`. -/
theorem connector_placement_witness :
    (0 : ℤ) < 1 ∧
    (draw_level reference 0 ⟨0, 0⟩ 1 []).filter (fun d => d.block = BlockShape.horizontal)
      = [(⟨BlockShape.horizontal,
          ⟨(calc_base reference 1 ⟨0, 0⟩).x
              + ((reference.segments : ℚ) * reference.segment_size * (2 : ℚ) ^ (1 : ℤ)
                + (if |(calc_base reference 1 ⟨0, 0⟩).x
                        - (calc_base reference (1 - 1) ⟨0, 0⟩).x|
                      = (reference.segments : ℚ) * reference.segment_size * (2 : ℚ) ^ (1 : ℤ)
                    then 7 * reference.segment_size * (2 : ℚ) ^ (1 : ℤ) else 0)),
           (calc_base reference 1 ⟨0, 0⟩).y
              + (reference.segments : ℚ) * reference.segment_size * (2 : ℚ) ^ (1 : ℤ)⟩,
          (2 : ℚ) ^ (1 : ℤ), 0⟩ : DrawCall)] :=
  ⟨by decide, (connector_placement reference ⟨0, 0⟩).1 0 1 (by decide)⟩

/-- C8: a non-shadow `draw` with `min_level = 0` and level count `L ≥ 0` issues,
for `l = 0, 1, .., L` in increasing order, one horizontal connector if `l > 0`
followed by the 16 border-slot blocks of level `l` in row-major slot order; in
total `16 * (L+1) + L` draws (67 for `L = 3`), none of them a vertical
connector. A shadow pass issues no draw. -/
theorem draw_sequence (L : ℕ) (segments : ℤ) (segment_size : ℚ) (cam : vec3) :
    draw ⟨(L : ℤ), segments, segment_size⟩ false cam
        = (List.range (L + 1)).flatMap (fun (l : ℕ) =>
            (if (0 : ℤ) < (l : ℤ) then
               [connector_call ⟨(L : ℤ), segments, segment_size⟩ ⟨cam.x, cam.z⟩ (l : ℤ)]
             else [])
            ++ ring_calls (calc_base ⟨(L : ℤ), segments, segment_size⟩ (l : ℤ) ⟨cam.x, cam.z⟩)
                ((2 : ℚ) ^ (l : ℤ)) (segment_size * (2 : ℚ) ^ (l : ℤ))
                ((segments : ℚ) * segment_size * (2 : ℚ) ^ (l : ℤ))) ∧
    (∀ (base : vec2) (scale s t : ℚ),
      (ring_calls base scale s t).length = 16 ∧
      (ring_calls base scale s t).map DrawCall.block
        = border_slots.map (fun rc => slot_role (rc.1 : ℤ) (rc.2 : ℤ))) ∧
    (draw ⟨(L : ℤ), segments, segment_size⟩ false cam).length = 16 * (L + 1) + L ∧
    (draw reference false cam).length = 67 ∧
    (draw ⟨(L : ℤ), segments, segment_size⟩ false cam).filter
        (fun d => d.block = BlockShape.vertical) = [] ∧
    draw ⟨(L : ℤ), segments, segment_size⟩ true cam = [] := by
  have hL : ((L : ℤ) + 1).toNat = L + 1 := by omega
  refine ⟨?_, ?_, ?_, ?_, ?_, ?_⟩
  · rw [draw_eq]
    simp only [hL]
    rfl
  · intro base scale s t
    refine ⟨ring_calls_length base scale s t, ?_⟩
    rw [ring_calls, List.map_map]
    rfl
  · rw [draw_eq]
    simp only [hL]
    exact levels_length _ _ L
  · rw [draw_eq]
    have h3 : (reference.levels + 1).toNat = 3 + 1 := rfl
    rw [h3]
    exact levels_length _ _ 3
  · rw [List.filter_eq_nil_iff]
    intro d hd
    rw [draw_eq] at hd
    rcases List.mem_flatMap.1 hd with ⟨l, _, hl⟩
    unfold level_calls at hl
    rcases List.mem_append.1 hl with h | h
    · by_cases hpos : (0 : ℤ) < (l : ℤ)
      · rw [if_pos hpos, List.mem_singleton] at h
        rw [h]
        simp [connector_call]
      · rw [if_neg hpos] at h
        cases h
    · rcases ring_calls_block_mem _ _ _ _ d h with hb | hb | hb <;> simp [hb]
  · rfl

/-! ## Block construction -/

/-- C9, the claim as stated fails: for `rows = 1`, `columns = 0` the mesh has
two vertices and the three indices `0, 1, 0xFFFF`, the assertion of the `Block`
constructor holds, and the block is accepted. -/
theorem zero_columns_block_accepted :
    Block.new 1 0 2 = Except.ok ⟨[⟨0, 0, 0⟩, ⟨0, 0, 2⟩], [0, 1, 0xFFFF], 3⟩ := by
  have hv : (generate_mesh [] [] 1 0 2).1 = [⟨0, 0, 0⟩, ⟨0, 0, 2⟩] := by
    have hcast : (generate_mesh [] [] 1 0 2).1
        = (generate_mesh [] [] ((1 : ℕ) : ℤ) ((0 : ℕ) : ℤ) 2).1 := rfl
    rw [hcast, generate_mesh_vertices]
    have h2 : (((1 : ℕ) : ℤ) + 1).toNat = 2 := rfl
    have h1 : (((0 : ℕ) : ℤ) + 1).toNat = 1 := rfl
    have r2 : List.range 2 = [0, 1] := rfl
    have r1 : List.range 1 = [0] := rfl
    rw [h2, h1, r2, r1]
    simp
  have hi : (generate_mesh [] [] 1 0 2).2 = [0, 1, 0xFFFF] := by
    have hcast : (generate_mesh [] [] 1 0 2).2
        = (generate_mesh [] [] ((1 : ℕ) : ℤ) ((0 : ℕ) : ℤ) 2).2 := rfl
    rw [hcast, generate_mesh_indices]
    rfl
  unfold Block.new
  simp only [hv, hi]
  rfl

/-- C9, amended: for every input with `rows ≤ 0` or `columns < 0` the `Block`
constructor built on `generate_mesh` fails its assertion, because the index
list or the vertex list is empty; `generate_mesh` itself reports no error. -/
theorem block_rejects_empty_mesh (width height : ℤ) (segment_size : ℚ)
    (h : width ≤ 0 ∨ height < 0) :
    Block.new width height segment_size = Except.error Error.assertion_failed := by
  unfold Block.new
  have hfail : ¬ ((generate_mesh [] [] width height segment_size).2.length > 0
      ∧ (generate_mesh [] [] width height segment_size).1.length > 0) := by
    rintro ⟨hi, hv⟩
    rcases h with hw | hh
    · rw [generate_mesh_indices_nil [] [] width height segment_size hw] at hi
      exact absurd hi (by simp)
    · rw [generate_mesh_vertices_length] at hv
      have h0 : (height + 1).toNat = 0 := by omega
      rw [h0, Nat.mul_zero] at hv
      exact absurd hv (by simp)
  simp only [hfail, if_false]

/-- Witness for C9 (amended): `rows = 0`, `columns = 1`. -/
theorem block_rejects_empty_mesh_witness :
    ((0 : ℤ) ≤ 0 ∨ (1 : ℤ) < 0) ∧
    Block.new 0 1 2 = Except.error Error.assertion_failed :=
  ⟨Or.inl le_rfl, block_rejects_empty_mesh 0 1 2 (Or.inl le_rfl)⟩

/-! ## The snapping cell and the centre of the ring -/

/-- C11: for every level `l` and viewer positions `p1`, `p2` with
`floor(p1 / 2^(l+2)) = floor(p2 / 2^(l+2))` in both components,
`calc_base l p1 = calc_base l p2`: the base depends on the viewer only through
the index of the snapping cell. -/
theorem calc_base_same_cell (self : Params) (l : ℤ) (p1 p2 : vec2)
    (hx : ⌊p1.x / (2 : ℚ) ^ (l + 2)⌋ = ⌊p2.x / (2 : ℚ) ^ (l + 2)⌋)
    (hy : ⌊p1.y / (2 : ℚ) ^ (l + 2)⌋ = ⌊p2.y / (2 : ℚ) ^ (l + 2)⌋) :
    calc_base self l p1 = calc_base self l p2 := by
  simp only [calc_base, vec2.subs, vec2.muls, vec2.floor, vec2.divs, pow2, hx, hy]

/-- Witness for C11: at level 0 the viewers `(1, 2)` and `(3, 0)` share the
snapping cell `(0, 0)` of the grid of step 4. -/
theorem calc_base_same_cell_witness :
    calc_base reference 0 ⟨1, 2⟩ = calc_base reference 0 ⟨3, 0⟩ :=
  calc_base_same_cell reference 0 ⟨1, 2⟩ ⟨3, 0⟩
    (by
      have h1 : ⌊(1 : ℚ) / (2 : ℚ) ^ ((0 : ℤ) + 2)⌋ = 0 := by
        rw [Int.floor_eq_iff]; norm_num
      have h2 : ⌊(3 : ℚ) / (2 : ℚ) ^ ((0 : ℤ) + 2)⌋ = 0 := by
        rw [Int.floor_eq_iff]; norm_num
      exact h1.trans h2.symm)
    (by
      have h1 : ⌊(2 : ℚ) / (2 : ℚ) ^ ((0 : ℤ) + 2)⌋ = 0 := by
        rw [Int.floor_eq_iff]; norm_num
      have h2 : ⌊(0 : ℚ) / (2 : ℚ) ^ ((0 : ℤ) + 2)⌋ = 0 := by
        rw [Int.floor_eq_iff]; norm_num
      exact h1.trans h2.symm)

/-- C12: the ring is centred on the viewer. For every level `l` and viewer `p`,
with `base = calc_base l p`, each component of `p` satisfies
`base + 2 * tile_size ≤ p < base + 2 * tile_size + 2^(l+2)`; with the reference
parameters the viewer is within `2 * 2^l` of the centre `base + 14 * 2^l` of
the footprint `[base, base + 28 * 2^l]` and strictly inside the inner hole
`[base + 6 * 2^l, base + 22 * 2^l]`, in both axes. -/
theorem viewer_centred (l : ℤ) (p : vec2) :
    (∀ self : Params,
      ((calc_base self l p).x + 2 * ((self.segments : ℚ) * self.segment_size * (2 : ℚ) ^ l)
          ≤ p.x ∧
        p.x < (calc_base self l p).x
          + 2 * ((self.segments : ℚ) * self.segment_size * (2 : ℚ) ^ l) + (2 : ℚ) ^ (l + 2)) ∧
      ((calc_base self l p).y + 2 * ((self.segments : ℚ) * self.segment_size * (2 : ℚ) ^ l)
          ≤ p.y ∧
        p.y < (calc_base self l p).y
          + 2 * ((self.segments : ℚ) * self.segment_size * (2 : ℚ) ^ l) + (2 : ℚ) ^ (l + 2))) ∧
    (|p.x - ((calc_base reference l p).x + 14 * (2 : ℚ) ^ l)| ≤ 2 * (2 : ℚ) ^ l ∧
      |p.y - ((calc_base reference l p).y + 14 * (2 : ℚ) ^ l)| ≤ 2 * (2 : ℚ) ^ l) ∧
    ((calc_base reference l p).x + 6 * (2 : ℚ) ^ l < p.x ∧
      p.x < (calc_base reference l p).x + 22 * (2 : ℚ) ^ l) ∧
    ((calc_base reference l p).y + 6 * (2 : ℚ) ^ l < p.y ∧
      p.y < (calc_base reference l p).y + 22 * (2 : ℚ) ^ l) := by
  have hu : 0 < (2 : ℚ) ^ l := pow2_pos l
  have hn : 0 < (2 : ℚ) ^ (l + 2) := pow2_pos (l + 2)
  have h4 : (2 : ℚ) ^ (l + 2) = 4 * (2 : ℚ) ^ l := by
    have e1 := pow2_succ (l + 1)
    have e2 := pow2_succ l
    have e3 : l + 1 + 1 = l + 2 := by ring
    rw [e3] at e1
    unfold pow2 at e1 e2
    rw [e1, e2]; ring
  have snap : ∀ q : ℚ, ((⌊q / (2 : ℚ) ^ (l + 2)⌋ : ℤ) : ℚ) * (2 : ℚ) ^ (l + 2) ≤ q ∧
      q < ((⌊q / (2 : ℚ) ^ (l + 2)⌋ : ℤ) : ℚ) * (2 : ℚ) ^ (l + 2) + (2 : ℚ) ^ (l + 2) := by
    intro q
    have h1 := Int.floor_le (q / (2 : ℚ) ^ (l + 2))
    have h2 := Int.lt_floor_add_one (q / (2 : ℚ) ^ (l + 2))
    rw [le_div_iff₀ hn] at h1
    rw [div_lt_iff₀ hn] at h2
    constructor
    · exact h1
    · linarith
  have gen : ∀ self : Params,
      ((calc_base self l p).x + 2 * ((self.segments : ℚ) * self.segment_size * (2 : ℚ) ^ l)
          ≤ p.x ∧
        p.x < (calc_base self l p).x
          + 2 * ((self.segments : ℚ) * self.segment_size * (2 : ℚ) ^ l) + (2 : ℚ) ^ (l + 2)) ∧
      ((calc_base self l p).y + 2 * ((self.segments : ℚ) * self.segment_size * (2 : ℚ) ^ l)
          ≤ p.y ∧
        p.y < (calc_base self l p).y
          + 2 * ((self.segments : ℚ) * self.segment_size * (2 : ℚ) ^ l) + (2 : ℚ) ^ (l + 2)) := by
    intro self
    simp only [calc_base, vec2.subs, vec2.muls, vec2.floor, vec2.divs, pow2]
    have sx := snap p.x
    have sy := snap p.y
    refine ⟨⟨?_, ?_⟩, ⟨?_, ?_⟩⟩ <;> linarith
  have href := gen reference
  have hseg : (reference.segments : ℚ) * reference.segment_size = 6 := by
    norm_num [reference]
  rw [hseg] at href
  obtain ⟨⟨hx1, hx2⟩, ⟨hy1, hy2⟩⟩ := href
  refine ⟨gen, ⟨?_, ?_⟩, ⟨?_, ?_⟩, ⟨?_, ?_⟩⟩
  · rw [abs_le]; constructor <;> linarith
  · rw [abs_le]; constructor <;> linarith
  · linarith
  · linarith
  · linarith
  · linarith

/-! ## The model matrix -/

/-- C13: `transform_matrix position scale angle` is the product
`Translate * Rotate * Scale`; for `angle = 0` (with `cos 0 = 1`, `sin 0 = 0`)
it maps every block-local point `(x, y, z)` to
`(position.x + scale * x, scale * y, position.y + scale * z)`: the second
component of the 2D position is the world z translation, and the scale is
applied before the translation. -/
theorem transform_matrix_action (cos sin : ℚ → ℚ) (hcos : cos 0 = 1) (hsin : sin 0 = 0)
    (position : vec2) (scale : ℚ) :
    (∀ angle : ℚ, transform_matrix cos sin position scale angle
        = glm_translate 1 ⟨position.x, 0, position.y⟩
          * glm_rotate cos sin 1 angle ⟨0, 1, 0⟩
          * glm_scale 1 ⟨scale, scale, scale⟩) ∧
    (∀ x y z : ℚ,
      (transform_matrix cos sin position scale 0).mulVec ![x, y, z, 1]
        = ![position.x + scale * x, scale * y, position.y + scale * z, 1]) := by
  refine ⟨fun angle => rfl, fun x y z => ?_⟩
  funext i
  fin_cases i <;>
    simp [transform_matrix, glm_translate, glm_rotate, glm_scale, hcos, hsin,
      Matrix.mulVec, Matrix.dotProduct, Matrix.mul_apply, Fin.sum_univ_four] <;> ring

/-- Witness for C13 with the functions `a ↦ 1 - a` and `a ↦ a` in the place of
`cos` and `sin`: the block-local point `(1, 2, 3)` under position `(5, 7)` and
scale 2. -/
theorem transform_matrix_action_witness :
    (transform_matrix (fun a => 1 - a) (fun a => a) ⟨5, 7⟩ 2 0).mulVec ![1, 2, 3, 1]
      = ![5 + 2 * 1, 2 * 2, 7 + 2 * 3, 1] :=
  (transform_matrix_action (fun a => 1 - a) (fun a => a) (by norm_num) (by norm_num)
    ⟨5, 7⟩ 2).2 1 2 3

/-! ## The degenerate-triangle plane against the restart strips -/

theorem create_plane_indices (vs : List vec3) (is : List ℕ) :
    (create_plane vs is).2
      = [0, 0, 6, 1, 7, 2, 8, 3, 9, 4, 10, 5, 11, 6,
         6, 6, 12, 7, 13, 8, 14, 9, 15, 10, 16, 11, 17, 12] := by
  simp only [create_plane, List.take_zero]
  rfl

theorem generate_mesh_two_five_indices (vs : List vec3) (is : List ℕ) (size : ℚ) :
    (generate_mesh vs is 2 5 size).2
      = [0, 6, 1, 7, 2, 8, 3, 9, 4, 10, 5, 11, 0xFFFF,
         6, 12, 7, 13, 8, 14, 9, 15, 10, 16, 11, 17, 0xFFFF] := by
  have hcast : (generate_mesh vs is 2 5 size).2
      = (generate_mesh vs is ((2 : ℕ) : ℤ) ((5 : ℕ) : ℤ) size).2 := rfl
  rw [hcast, generate_mesh_indices]
  rfl

/-- C14, the code at `create_plane` (which takes no dimensions: `rows = 2`,
`columns = 5` are fixed): the index after the run of row 0 is 6, not a repeat of
the run's last real index 11, so the strip holds the triangle `(5, 11, 6)`,
whose three indices are pairwise distinct and which is no triangle of the
restart-based strips of `generate_mesh 2 5`; the same happens after row 1 with
`(11, 17, 12)`. -/
theorem create_plane_stray_triangles :
    (create_plane [] []).2[12]? = some 11 ∧
    (create_plane [] []).2[13]? = some 6 ∧
    (strip_triangles (create_plane [] []).2).filter (fun t =>
        !(restart_triangles primitive_restart (generate_mesh [] [] 2 5 1).2).any
            (same_triangle t)
          && !degenerate t)
      = [(5, 11, 6), (11, 17, 12)] := by
  rw [create_plane_indices, generate_mesh_two_five_indices]
  refine ⟨rfl, rfl, ?_⟩
  decide

/-! ## Validity of the indices -/

/-- C20: for `rows ≥ 1` and a vertex count `(rows+1) * (columns+1) ≤ 0xFFFF`,
every index of `generate_mesh rows columns` other than the restart index is a
valid position in the vertex list, and every position of the vertex list
occurs among the indices (and is not the restart index). This holds for the
five blocks built by `Clipmap`, with the arguments `(3,3)`, `(2,3)`, `(3,2)`,
`(8,1)`, `(1,7)`: each is constructed, and has these two properties. -/
theorem indices_within_vertices (vs : List vec3) (is : List ℕ) (rows columns : ℕ)
    (size : ℚ) (hrows : 1 ≤ rows) (hcap : (rows + 1) * (columns + 1) ≤ 0xFFFF) :
    (generate_mesh vs is (rows : ℤ) (columns : ℤ) size).1.length
        = (rows + 1) * (columns + 1) ∧
    (∀ i ∈ (generate_mesh vs is (rows : ℤ) (columns : ℤ) size).2,
      i ≠ primitive_restart →
        i < (generate_mesh vs is (rows : ℤ) (columns : ℤ) size).1.length) ∧
    (∀ v : ℕ, v < (generate_mesh vs is (rows : ℤ) (columns : ℤ) size).1.length →
      v ≠ primitive_restart ∧ v ∈ (generate_mesh vs is (rows : ℤ) (columns : ℤ) size).2) ∧
    (∀ shape : BlockShape, ∃ b : Block, block_member shape = Except.ok b ∧
      (∀ i ∈ b.indices, i ≠ primitive_restart → i < b.vertices.length) ∧
      (∀ v : ℕ, v < b.vertices.length → v ≠ primitive_restart ∧ v ∈ b.indices)) := by
  have hlen : (generate_mesh vs is (rows : ℤ) (columns : ℤ) size).1.length
      = (rows + 1) * (columns + 1) := by
    rw [generate_mesh_vertices_length]
    have h1 : ((rows : ℤ) + 1).toNat = rows + 1 := by omega
    have h2 : ((columns : ℤ) + 1).toNat = columns + 1 := by omega
    rw [h1, h2]
  refine ⟨hlen, (indices_valid vs is rows columns size hrows hcap).1,
    (indices_valid vs is rows columns size hrows hcap).2, ?_⟩
  have hshape : ∀ (r c : ℕ), 1 ≤ r → (r + 1) * (c + 1) ≤ 0xFFFF →
      ∃ b : Block, Block.new (r : ℤ) (c : ℤ) 2 = Except.ok b ∧
        (∀ i ∈ b.indices, i ≠ primitive_restart → i < b.vertices.length) ∧
        (∀ v : ℕ, v < b.vertices.length → v ≠ primitive_restart ∧ v ∈ b.indices) := by
    intro r c hr hc
    have hv := indices_valid [] [] r c 2 hr hc
    have hil := generate_mesh_indices_length [] [] r c 2
    have hvl : (generate_mesh [] [] (r : ℤ) (c : ℤ) 2).1.length = (r + 1) * (c + 1) := by
      rw [generate_mesh_vertices_length]
      have h1 : ((r : ℤ) + 1).toNat = r + 1 := by omega
      have h2 : ((c : ℤ) + 1).toNat = c + 1 := by omega
      rw [h1, h2]
    have hipos : (generate_mesh [] [] (r : ℤ) (c : ℤ) 2).2.length > 0 := by
      rw [hil]; exact Nat.mul_pos hr (by omega)
    have hvpos : (generate_mesh [] [] (r : ℤ) (c : ℤ) 2).1.length > 0 := by
      rw [hvl]; exact Nat.mul_pos (by omega) (by omega)
    refine ⟨⟨(generate_mesh [] [] (r : ℤ) (c : ℤ) 2).1,
      (generate_mesh [] [] (r : ℤ) (c : ℤ) 2).2,
      (generate_mesh [] [] (r : ℤ) (c : ℤ) 2).2.length % 2 ^ 32⟩, ?_, hv.1, hv.2⟩
    unfold Block.new
    simp only [hipos, hvpos, and_self, if_true]
  intro shape
  cases shape
  · exact hshape 3 3 (by decide) (by decide)
  · exact hshape 2 3 (by decide) (by decide)
  · exact hshape 3 2 (by decide) (by decide)
  · exact hshape 8 1 (by decide) (by decide)
  · exact hshape 1 7 (by decide) (by decide)

/-- Witness for C20 at the reference tile, `rows = columns = 3`: vertex 15 is
used by an index. -/
theorem indices_within_vertices_witness :
    (1 ≤ 3 ∧ (3 + 1) * (3 + 1) ≤ 0xFFFF) ∧
    (15 ≠ primitive_restart ∧ 15 ∈ (generate_mesh [] [] ((3 : ℕ) : ℤ) ((3 : ℕ) : ℤ) 2).2) :=
  ⟨by decide,
   (indices_within_vertices [] [] 3 3 2 (by decide) (by decide)).2.2.1 15
     (by rw [(indices_within_vertices [] [] 3 3 2 (by decide) (by decide)).1]; decide)⟩

/-! ## The ring of a level -/

/-- C19: for every level `l` and viewer `p`, the block for the drawn slot
`(r, c)` is placed at `calc_base l p + (A r, A c)` with scale `2^l` and no
rotation, where `A 0 = 0`, `A (i+1) = A i + tile_size` for `i ≠ 2` and
`A 3 = A 2 + 2 * scaled_segment_size`, that is `A = [0, t, 2t, 2t+2s, 3t+2s]`.
The row index drives the first component of the position (the world x
translation of the model matrix), the column index the second (its world z
translation), and the column accumulator restarts at 0 for every row. -/
theorem slot_placement (self : Params) (min_level l : ℤ) (p : vec2) :
    ((draw_level self min_level p l []).filter (fun d => d.block ≠ BlockShape.horizontal)
      = border_slots.map (fun rc =>
          (⟨slot_role (rc.1 : ℤ) (rc.2 : ℤ),
            ⟨(calc_base self l p).x
                + slot_offset ((self.segments : ℚ) * self.segment_size * (2 : ℚ) ^ l)
                    (self.segment_size * (2 : ℚ) ^ l) rc.1,
             (calc_base self l p).y
                + slot_offset ((self.segments : ℚ) * self.segment_size * (2 : ℚ) ^ l)
                    (self.segment_size * (2 : ℚ) ^ l) rc.2⟩,
            (2 : ℚ) ^ l, 0⟩ : DrawCall))) ∧
    (∀ t s : ℚ, slot_offset t s 0 = 0 ∧
      (∀ i : ℕ, slot_offset t s (i + 1)
        = slot_offset t s i + (if i = 2 then 2 * s else t)) ∧
      (List.range 5).map (slot_offset t s) = [0, t, 2 * t, 2 * t + 2 * s, 3 * t + 2 * s]) ∧
    (∀ (base : vec2) (scale s t : ℚ) (r : ℤ) (x y : ℚ) (calls : List DrawCall),
      draw_row 5 5 base scale s t r ⟨⟨x, y⟩, calls⟩
        = draw_row 5 5 base scale s t r ⟨⟨x, 0⟩, calls⟩) ∧
    (∀ (cos sin : ℚ → ℚ) (position : vec2) (scale angle : ℚ),
      transform_matrix cos sin position scale angle 0 3 = position.x ∧
      transform_matrix cos sin position scale angle 1 3 = 0 ∧
      transform_matrix cos sin position scale angle 2 3 = position.y) := by
  refine ⟨?_, ?_, ?_, ?_⟩
  · rw [draw_level_eq, List.nil_append, filter_ring_level]
    rfl
  · intro t s
    obtain ⟨A0, A1, A2, A3, A4, _⟩ := slot_offset_values t s
    refine ⟨rfl, fun i => rfl, ?_⟩
    have hr : List.range 5 = [0, 1, 2, 3, 4] := rfl
    rw [hr]
    simp only [List.map, A0, A1, A2, A3, A4]
  · intro base scale s t r x y calls
    rfl
  · intro cos sin position scale angle
    simp [transform_matrix, glm_translate, glm_rotate, glm_scale, Matrix.mul_apply,
      Fin.sum_univ_four]

/-- C16: for every level `l` and viewer `p`, with the reference parameters, the
16 blocks drawn for the ring tile it without gaps or overlaps: their footprints
(mesh extent `columns * segment_size` along x, `rows * segment_size` along z,
scaled by `2^l` and translated to the placement) have pairwise disjoint
interiors, and their union is the square
`[base, base + 4 * tile_size + 2 * scaled_segment_size]^2` without the open
inner square `(base + tile_size, base + 3 * tile_size + 2 * scaled_segment_size)^2`.
The footprint is the extent of the vertices of the block's mesh. -/
theorem ring_tiling (min_level l : ℤ) (p : vec2) :
    ((draw_level reference min_level p l []).filter
        (fun d => d.block ≠ BlockShape.horizontal)).length = 16 ∧
    List.Pairwise
      (fun a b => ∀ x z : ℚ, ¬ ((footprint a).interior x z ∧ (footprint b).interior x z))
      ((draw_level reference min_level p l []).filter
        (fun d => d.block ≠ BlockShape.horizontal)) ∧
    (∀ x z : ℚ,
      (∃ d ∈ (draw_level reference min_level p l []).filter
          (fun d => d.block ≠ BlockShape.horizontal), (footprint d).mem x z)
        ↔ (ring_outer (calc_base reference l p)
              ((reference.segments : ℚ) * reference.segment_size * (2 : ℚ) ^ l)
              (reference.segment_size * (2 : ℚ) ^ l)).mem x z
          ∧ ¬ (ring_hole (calc_base reference l p)
              ((reference.segments : ℚ) * reference.segment_size * (2 : ℚ) ^ l)
              (reference.segment_size * (2 : ℚ) ^ l)).interior x z) ∧
    (∀ shape : BlockShape, ∃ b : Block, block_member shape = Except.ok b ∧
      (∀ v ∈ b.vertices,
        (0 ≤ v.x ∧ v.x ≤ ((block_args shape).2.1 : ℚ) * (block_args shape).2.2) ∧
        (0 ≤ v.z ∧ v.z ≤ ((block_args shape).1 : ℚ) * (block_args shape).2.2)) ∧
      (⟨0, 0, 0⟩ : vec3) ∈ b.vertices ∧
      (⟨((block_args shape).2.1 : ℚ) * (block_args shape).2.2, 0,
        ((block_args shape).1 : ℚ) * (block_args shape).2.2⟩ : vec3) ∈ b.vertices) := by
  have hu : 0 < (2 : ℚ) ^ l := pow2_pos l
  have ht6 : (reference.segments : ℚ) * reference.segment_size * (2 : ℚ) ^ l
      = 6 * (2 : ℚ) ^ l := by norm_num [reference]
  have hs2 : reference.segment_size * (2 : ℚ) ^ l = 2 * (2 : ℚ) ^ l := by
    norm_num [reference]
  have ht : 0 < (reference.segments : ℚ) * reference.segment_size * (2 : ℚ) ^ l := by
    rw [ht6]; linarith
  have hs : 0 < reference.segment_size * (2 : ℚ) ^ l := by
    rw [hs2]; linarith
  rw [draw_level_eq, List.nil_append, filter_ring_level]
  refine ⟨ring_calls_length _ _ _ _, ?_, ?_, block_member_extent⟩
  · unfold ring_calls
    rw [List.pairwise_map]
    have hnd : List.Pairwise (fun a b : ℕ × ℕ => a ≠ b) border_slots := by
      rw [border_slots_eq]; decide
    refine List.Pairwise.imp_of_mem ?_ hnd
    intro a b ha hb hab x z
    rw [footprint_ring_call _ _ _ _ ht6 hs2 a ha, footprint_ring_call _ _ _ _ ht6 hs2 b hb]
    exact slot_rect_disjoint _ _ _ ht hs a b hab x z
  · intro x z
    rw [← border_cells_cover _ _ _ ht hs x z]
    unfold ring_calls
    constructor
    · rintro ⟨d, hd, hmem⟩
      rcases List.mem_map.1 hd with ⟨rc, hrc, rfl⟩
      rw [footprint_ring_call _ _ _ _ ht6 hs2 rc hrc] at hmem
      exact ⟨rc, hrc, hmem⟩
    · rintro ⟨rc, hrc, hmem⟩
      refine ⟨_, List.mem_map.2 ⟨rc, hrc, rfl⟩, ?_⟩
      rw [footprint_ring_call _ _ _ _ ht6 hs2 rc hrc]
      exact hmem

/-! ## The seam between adjacent levels -/

/-- C17: for every level `l > min_level` and viewer `p`, with the reference
parameters, the horizontal connector drawn at level `l` is flush along x: its
x-interval has width `segment_size * 2^l`; that interval and the x-interval
`[calc_base (l-1) p .x, calc_base (l-1) p .x + 28 * 2^(l-1)]` of the finer ring
have disjoint interiors and together cover exactly the x-interval
`[calc_base l p .x + tile_size, calc_base l p .x + tile_size + 8 * segment_size * 2^l]`
of the inner hole of level `l`; and the connector's z-interval is the whole
z-interval of the hole. -/
theorem connector_flush (min_level l : ℤ) (p : vec2) (hl : min_level < l) :
    (draw_level reference min_level p l []).filter
        (fun d => d.block = BlockShape.horizontal) = [connector_call reference p l] ∧
    (footprint (connector_call reference p l)).x1 - (footprint (connector_call reference p l)).x0
        = reference.segment_size * (2 : ℚ) ^ l ∧
    (∀ x : ℚ,
      ¬ (((footprint (connector_call reference p l)).x0 < x
            ∧ x < (footprint (connector_call reference p l)).x1)
          ∧ ((calc_base reference (l - 1) p).x < x
            ∧ x < (calc_base reference (l - 1) p).x + 28 * (2 : ℚ) ^ (l - 1)))) ∧
    (∀ x : ℚ,
      (((footprint (connector_call reference p l)).x0 ≤ x
            ∧ x ≤ (footprint (connector_call reference p l)).x1)
          ∨ ((calc_base reference (l - 1) p).x ≤ x
            ∧ x ≤ (calc_base reference (l - 1) p).x + 28 * (2 : ℚ) ^ (l - 1)))
        ↔ ((calc_base reference l p).x
              + (reference.segments : ℚ) * reference.segment_size * (2 : ℚ) ^ l ≤ x
            ∧ x ≤ (calc_base reference l p).x
              + (reference.segments : ℚ) * reference.segment_size * (2 : ℚ) ^ l
              + 8 * reference.segment_size * (2 : ℚ) ^ l)) ∧
    ((footprint (connector_call reference p l)).z0
        = (calc_base reference l p).y
          + (reference.segments : ℚ) * reference.segment_size * (2 : ℚ) ^ l ∧
     (footprint (connector_call reference p l)).z1
        = (calc_base reference l p).y
          + (reference.segments : ℚ) * reference.segment_size * (2 : ℚ) ^ l
          + 8 * reference.segment_size * (2 : ℚ) ^ l) := by
  have hu : 0 < (2 : ℚ) ^ l := pow2_pos l
  have hhalf : (2 : ℚ) ^ l = 2 * (2 : ℚ) ^ (l - 1) := by
    have := pow2_succ (l - 1)
    rwa [sub_add_cancel] at this
  have h6 : (reference.segments : ℚ) * reference.segment_size * (2 : ℚ) ^ l
      = 6 * (2 : ℚ) ^ l := by
    norm_num [reference]
  have h16 : 8 * reference.segment_size * (2 : ℚ) ^ l = 16 * (2 : ℚ) ^ l := by
    norm_num [reference]
  have hs2 : reference.segment_size * (2 : ℚ) ^ l = 2 * (2 : ℚ) ^ l := by
    norm_num [reference]
  rw [connector_footprint, h6, h16, hs2]
  dsimp only
  refine ⟨?_, ?_, ?_, ?_, ?_, ?_⟩
  · rw [draw_level_eq, List.nil_append, filter_horizontal_level, if_pos hl]
  · ring
  · intro x
    rintro ⟨⟨c1, c2⟩, ⟨f1, f2⟩⟩
    rcases (reference_base_offset l p).1 with h | h
    · rw [if_pos h] at c1 c2
      linarith
    · have hne : ¬ ((calc_base reference (l - 1) p).x - (calc_base reference l p).x
          = 6 * (2 : ℚ) ^ l) := by
        intro h'; linarith
      rw [if_neg hne] at c1 c2
      linarith
  · intro x
    rcases (reference_base_offset l p).1 with h | h
    · simp only [if_pos h]
      constructor
      · rintro (⟨c1, c2⟩ | ⟨f1, f2⟩)
        · constructor <;> linarith
        · constructor <;> linarith
      · rintro ⟨g1, g2⟩
        by_cases hx : x ≤ (calc_base reference (l - 1) p).x + 28 * (2 : ℚ) ^ (l - 1)
        · right; constructor <;> linarith
        · left; constructor <;> linarith
    · have hne : ¬ ((calc_base reference (l - 1) p).x - (calc_base reference l p).x
          = 6 * (2 : ℚ) ^ l) := by
        intro h'; linarith
      simp only [if_neg hne]
      constructor
      · rintro (⟨c1, c2⟩ | ⟨f1, f2⟩)
        · constructor <;> linarith
        · constructor <;> linarith
      · rintro ⟨g1, g2⟩
        by_cases hx : (calc_base reference (l - 1) p).x ≤ x
        · right; constructor <;> linarith
        · left; constructor <;> linarith
  · rfl
  · ring

/-- Witness for C17: level 1 above `min_level = 0`, viewer `(0, 0)`; the
connector's x-interval has width `2 * 2^1`. -/
theorem connector_flush_witness :
    (0 : ℤ) < 1 ∧
    (footprint (connector_call reference ⟨0, 0⟩ 1)).x1
        - (footprint (connector_call reference ⟨0, 0⟩ 1)).x0
      = reference.segment_size * (2 : ℚ) ^ (1 : ℤ) :=
  ⟨by decide, (connector_flush 0 1 ⟨0, 0⟩ (by decide)).2.1⟩

/-- C18, the code at level 1 with the reference parameters and viewer `(0, 0)`:
the point `(0, 18)` lies in the inner hole of level 1, `[-12, 20]^2`, outside
the footprint square `[-12, 16]^2` of the ring of level 0, and in the footprint
of no connector block drawn at level 1 (the only one is the horizontal
connector, on `[16, 20] x [-12, 20]`). For every level and viewer there is such
a point of the hole, covered neither by the finer ring's square nor by the
horizontal connector. -/
theorem seam_left_open :
    ((ring_hole (calc_base reference 1 ⟨0, 0⟩) 12 4).mem 0 18 ∧
      ¬ (ring_outer (calc_base reference 0 ⟨0, 0⟩) 6 2).mem 0 18 ∧
      (∀ d ∈ draw_level reference 0 ⟨0, 0⟩ 1 [],
        d.block = BlockShape.horizontal ∨ d.block = BlockShape.vertical →
          ¬ (footprint d).mem 0 18)) ∧
    (∀ (l : ℤ) (p : vec2), ∃ x z : ℚ,
      (ring_hole (calc_base reference l p) (6 * (2 : ℚ) ^ l) (2 * (2 : ℚ) ^ l)).mem x z ∧
      ¬ (ring_outer (calc_base reference (l - 1) p) (6 * (2 : ℚ) ^ (l - 1))
          (2 * (2 : ℚ) ^ (l - 1))).mem x z ∧
      ¬ (footprint (connector_call reference p l)).mem x z) := by
  have hb1 : calc_base reference 1 ⟨0, 0⟩ = ⟨-24, -24⟩ := by
    simp [calc_base, reference, vec2.subs, vec2.muls, vec2.floor, vec2.divs, pow2]
    norm_num
  have hb0 : calc_base reference 0 ⟨0, 0⟩ = ⟨-12, -12⟩ := by
    simp [calc_base, reference, vec2.subs, vec2.muls, vec2.floor, vec2.divs, pow2]
    norm_num
  refine ⟨⟨?_, ?_, ?_⟩, ?_⟩
  · rw [hb1]
    simp only [Rect.mem, ring_hole]
    norm_num
  · rw [hb0]
    simp only [Rect.mem, ring_outer]
    norm_num
  · intro d hd hblock
    rw [draw_level_eq, List.nil_append] at hd
    unfold level_calls at hd
    rcases List.mem_append.1 hd with h | h
    · rw [if_pos (by decide), List.mem_singleton] at h
      rw [h, connector_footprint]
      have e0 : (calc_base reference (1 - 1) ⟨0, 0⟩) = ⟨-12, -12⟩ := hb0
      rw [e0, hb1]
      simp only [Rect.mem]
      norm_num
    · rcases ring_calls_block_mem _ _ _ _ d h with hb | hb | hb <;>
        rw [hb] at hblock <;> simp at hblock
  · intro l p
    have hu : 0 < (2 : ℚ) ^ l := pow2_pos l
    have hhalf : (2 : ℚ) ^ l = 2 * (2 : ℚ) ^ (l - 1) := by
      have := pow2_succ (l - 1)
      rwa [sub_add_cancel] at this
    obtain ⟨hx, hz⟩ := reference_base_offset l p
    have hxin : ∀ z : ℚ, ¬ (footprint (connector_call reference p l)).mem
        ((calc_base reference (l - 1) p).x + 7 * (2 : ℚ) ^ (l - 1)) z := by
      intro z
      rw [connector_footprint]
      rintro ⟨⟨c1, c2⟩, _⟩
      dsimp only at c1 c2
      rcases hx with h | h
      · rw [if_pos h] at c1 c2
        linarith
      · have hne : ¬ ((calc_base reference (l - 1) p).x - (calc_base reference l p).x
            = 6 * (2 : ℚ) ^ l) := by
          intro h'; linarith
        rw [if_neg hne] at c1 c2
        linarith
    rcases hz with h | h
    · refine ⟨(calc_base reference (l - 1) p).x + 7 * (2 : ℚ) ^ (l - 1),
        (calc_base reference l p).y + 21 * (2 : ℚ) ^ l, ?_, ?_, hxin _⟩
      · simp only [Rect.mem, ring_hole]
        rcases hx with h' | h' <;> refine ⟨⟨?_, ?_⟩, ⟨?_, ?_⟩⟩ <;> linarith
      · simp only [Rect.mem, ring_outer]
        rintro ⟨_, ⟨_, g2⟩⟩
        linarith
    · refine ⟨(calc_base reference (l - 1) p).x + 7 * (2 : ℚ) ^ (l - 1),
        (calc_base reference l p).y + 7 * (2 : ℚ) ^ l, ?_, ?_, hxin _⟩
      · simp only [Rect.mem, ring_hole]
        rcases hx with h' | h' <;> refine ⟨⟨?_, ?_⟩, ⟨?_, ?_⟩⟩ <;> linarith
      · simp only [Rect.mem, ring_outer]
        rintro ⟨_, ⟨g1, _⟩⟩
        linarith

/-! ## Nesting of adjacent levels -/

/-- C21: adjacent levels never overlap. For every level `l` and viewer `p`,
with the reference parameters, `calc_base (l-1) p - calc_base l p` is `6 * 2^l`
or `8 * 2^l` in each component, and the footprint square
`[calc_base (l-1) p, calc_base (l-1) p + 28 * 2^(l-1)]^2` of the ring of level
`l - 1` is contained in the inner hole
`[calc_base l p + 6 * 2^l, calc_base l p + 22 * 2^l]^2` of level `l`, in both
axes. So no ring block drawn at level `l` has an interior point in the
footprint of a ring block drawn at level `l - 1`. -/
theorem levels_nested (l : ℤ) (p : vec2) :
    (((calc_base reference (l - 1) p).x - (calc_base reference l p).x = 6 * (2 : ℚ) ^ l ∨
      (calc_base reference (l - 1) p).x - (calc_base reference l p).x = 8 * (2 : ℚ) ^ l) ∧
     ((calc_base reference (l - 1) p).y - (calc_base reference l p).y = 6 * (2 : ℚ) ^ l ∨
      (calc_base reference (l - 1) p).y - (calc_base reference l p).y = 8 * (2 : ℚ) ^ l)) ∧
    (((calc_base reference l p).x + 6 * (2 : ℚ) ^ l ≤ (calc_base reference (l - 1) p).x ∧
      (calc_base reference (l - 1) p).x + 28 * (2 : ℚ) ^ (l - 1)
        ≤ (calc_base reference l p).x + 22 * (2 : ℚ) ^ l) ∧
     ((calc_base reference l p).y + 6 * (2 : ℚ) ^ l ≤ (calc_base reference (l - 1) p).y ∧
      (calc_base reference (l - 1) p).y + 28 * (2 : ℚ) ^ (l - 1)
        ≤ (calc_base reference l p).y + 22 * (2 : ℚ) ^ l)) ∧
    (∀ x z : ℚ,
      (ring_outer (calc_base reference (l - 1) p)
          ((reference.segments : ℚ) * reference.segment_size * (2 : ℚ) ^ (l - 1))
          (reference.segment_size * (2 : ℚ) ^ (l - 1))).mem x z →
      (ring_hole (calc_base reference l p)
          ((reference.segments : ℚ) * reference.segment_size * (2 : ℚ) ^ l)
          (reference.segment_size * (2 : ℚ) ^ l)).mem x z) ∧
    (∀ (m m' : ℤ),
      ∀ d ∈ (draw_level reference m p l []).filter
          (fun d => d.block ≠ BlockShape.horizontal),
      ∀ d' ∈ (draw_level reference m' p (l - 1) []).filter
          (fun d => d.block ≠ BlockShape.horizontal),
      ∀ x z : ℚ, ¬ ((footprint d).interior x z ∧ (footprint d').mem x z)) := by
  have hu : 0 < (2 : ℚ) ^ l := pow2_pos l
  have hv : 0 < (2 : ℚ) ^ (l - 1) := pow2_pos (l - 1)
  have hhalf : (2 : ℚ) ^ l = 2 * (2 : ℚ) ^ (l - 1) := by
    have := pow2_succ (l - 1)
    rwa [sub_add_cancel] at this
  have ht6 : ∀ k : ℤ, (reference.segments : ℚ) * reference.segment_size * (2 : ℚ) ^ k
      = 6 * (2 : ℚ) ^ k := by
    intro k; norm_num [reference]
  have hs2 : ∀ k : ℤ, reference.segment_size * (2 : ℚ) ^ k = 2 * (2 : ℚ) ^ k := by
    intro k; norm_num [reference]
  obtain ⟨hx, hz⟩ := reference_base_offset l p
  have hbounds :
      ((calc_base reference l p).x + 6 * (2 : ℚ) ^ l ≤ (calc_base reference (l - 1) p).x ∧
        (calc_base reference (l - 1) p).x + 28 * (2 : ℚ) ^ (l - 1)
          ≤ (calc_base reference l p).x + 22 * (2 : ℚ) ^ l) ∧
      ((calc_base reference l p).y + 6 * (2 : ℚ) ^ l ≤ (calc_base reference (l - 1) p).y ∧
        (calc_base reference (l - 1) p).y + 28 * (2 : ℚ) ^ (l - 1)
          ≤ (calc_base reference l p).y + 22 * (2 : ℚ) ^ l) := by
    refine ⟨⟨?_, ?_⟩, ⟨?_, ?_⟩⟩
    · rcases hx with h | h <;> linarith
    · rcases hx with h | h <;> linarith
    · rcases hz with h | h <;> linarith
    · rcases hz with h | h <;> linarith
  have hcontain : ∀ x z : ℚ,
      (ring_outer (calc_base reference (l - 1) p)
          ((reference.segments : ℚ) * reference.segment_size * (2 : ℚ) ^ (l - 1))
          (reference.segment_size * (2 : ℚ) ^ (l - 1))).mem x z →
      (ring_hole (calc_base reference l p)
          ((reference.segments : ℚ) * reference.segment_size * (2 : ℚ) ^ l)
          (reference.segment_size * (2 : ℚ) ^ l)).mem x z := by
    intro x z
    rw [ht6, hs2, ht6, hs2]
    obtain ⟨⟨bx1, bx2⟩, ⟨bz1, bz2⟩⟩ := hbounds
    rintro ⟨⟨ox1, ox2⟩, ⟨oz1, oz2⟩⟩
    simp only [ring_outer] at ox1 ox2 oz1 oz2
    simp only [Rect.mem, ring_hole]
    refine ⟨⟨?_, ?_⟩, ⟨?_, ?_⟩⟩ <;> linarith
  refine ⟨⟨hx, hz⟩, hbounds, hcontain, ?_⟩
  intro m m' d hd d' hd' x z
  rw [draw_level_eq, List.nil_append, filter_ring_level] at hd hd'
  unfold ring_calls at hd hd'
  rcases List.mem_map.1 hd with ⟨rc, hrc, rfl⟩
  rcases List.mem_map.1 hd' with ⟨rc', hrc', rfl⟩
  rw [footprint_ring_call _ _ _ _ (ht6 l) (hs2 l) rc hrc,
    footprint_ring_call _ _ _ _ (ht6 (l - 1)) (hs2 (l - 1)) rc' hrc']
  rintro ⟨hin, hmem⟩
  have ht' : 0 < (reference.segments : ℚ) * reference.segment_size * (2 : ℚ) ^ (l - 1) := by
    rw [ht6]; linarith
  have hs' : 0 < reference.segment_size * (2 : ℚ) ^ (l - 1) := by
    rw [hs2]; linarith
  have hout := ((border_cells_cover _ _ _ ht' hs' x z).1 ⟨rc', hrc', hmem⟩).1
  exact border_cell_interior_not_hole _ _ _ rc hrc x z hin (hcontain x z hout)

end Clipmap

/-! ## The PID controller -/

namespace PID

theorem clamp_bounds (x : ℚ) : -1 ≤ clamp x (-1) 1 ∧ clamp x (-1) 1 ≤ 1 := by
  unfold clamp
  constructor
  · exact le_min (le_max_right _ _) (by norm_num)
  · exact min_le_right _ _

theorem clamp_of_mem (x : ℚ) (h1 : -1 ≤ x) (h2 : x ≤ 1) : clamp x (-1) 1 = x := by
  unfold clamp
  rw [max_eq_left h1, min_eq_left h2]

/-- One call on an object whose `initialized` flag is clear: the derivative
term vanishes and the flag stays clear. -/
theorem calculate_uninitialized (self : PID) (hinit : self.initialized = false)
    (current_value target_value dt : ℚ) :
    calculate self current_value target_value dt
      = (clamp ((target_value - current_value) * self.proportional_gain
            + (self.integral + (target_value - current_value) * dt) * self.integral_gain)
          (-1) 1,
         ⟨self.integral + (target_value - current_value) * dt, false, current_value,
          target_value - current_value, self.use_value, self.proportional_gain,
          self.integral_gain, self.derivative_gain⟩) := by
  obtain ⟨integral, initialized, pv, pe, uv, kp, ki, kd⟩ := self
  simp only at hinit
  subst hinit
  cases uv <;>
    simp [calculate, calculate_terms, output_range]

/-- The values returned by a sequence of calls on an object whose
`initialized` flag is clear. -/
theorem calculate_all_getElem? (calls : List (ℚ × ℚ × ℚ)) :
    ∀ (self : PID), self.initialized = false → ∀ (n : ℕ) (c : ℚ × ℚ × ℚ),
      calls[n]? = some c →
      (calculate_all self calls).1[n]?
        = some (clamp ((c.2.1 - c.1) * self.proportional_gain
            + (self.integral
                + ((calls.take (n + 1)).map (fun a => (a.2.1 - a.1) * a.2.2)).sum)
              * self.integral_gain) (-1) 1) := by
  induction calls with
  | nil => intro self _ n c h; simp at h
  | cons c0 rest ih =>
    intro self hinit n c h
    have hstep := calculate_uninitialized self hinit c0.1 c0.2.1 c0.2.2
    cases n with
    | zero =>
      simp only [List.getElem?_cons_zero, Option.some.injEq] at h
      subst h
      simp only [calculate_all, hstep, List.getElem?_cons_zero, zero_add, List.take_succ_cons,
        List.take_zero, List.map_cons, List.map_nil, List.sum_cons, List.sum_nil, add_zero]
    | succ k =>
      simp only [List.getElem?_cons_succ] at h
      have hrec := ih (calculate self c0.1 c0.2.1 c0.2.2).2 (by rw [hstep]) k c h
      simp only [calculate_all, List.getElem?_cons_succ, hrec]
      rw [hstep]
      simp only [List.take_succ_cons, List.map_cons, List.sum_cons]
      rw [add_assoc]

theorem calculate_all_initialized (calls : List (ℚ × ℚ × ℚ)) :
    ∀ (self : PID), self.initialized = false →
      (calculate_all self calls).2.initialized = false := by
  induction calls with
  | nil => intro self h; exact h
  | cons c0 rest ih =>
    intro self hinit
    have hstep := calculate_uninitialized self hinit c0.1 c0.2.1 c0.2.2
    simp only [calculate_all]
    exact ih _ (by rw [hstep])

/-- C22: `calculate` never applies its derivative term. On a constructed
object the `initialized` flag is never set, so for every sequence of calls
`(current_i, target_i, dt_i)` with `dt_i ≠ 0` the `n`-th returned value is
`clamp(kp * e_n + ki * sum_{i ≤ n} e_i * dt_i, -1, 1)` with
`e_i = target_i - current_i`, whatever `derivative_gain` and `use_value` are;
the derivative term of every such call is 0 and the flag is still clear after
the calls. (The condition `dt_i ≠ 0` delimits the calls whose `float`
divisions the rational model represents.) -/
theorem derivative_never_applied (kp ki kd : ℚ) (use_value : Bool)
    (calls : List (ℚ × ℚ × ℚ)) (_hdt : ∀ c ∈ calls, c.2.2 ≠ 0) :
    (∀ (n : ℕ) (c : ℚ × ℚ × ℚ), calls[n]? = some c →
      (calculate_all (new kp ki kd use_value) calls).1[n]?
        = some (clamp (kp * (c.2.1 - c.1)
            + ki * ((calls.take (n + 1)).map (fun a => (a.2.1 - a.1) * a.2.2)).sum)
            (-1) 1)) ∧
    (calculate_all (new kp ki kd use_value) calls).1.length = calls.length ∧
    (calculate_all (new kp ki kd use_value) calls).2.initialized = false ∧
    (∀ (self : PID) (current_value target_value dt : ℚ),
      self.initialized = false → dt ≠ 0 →
        (calculate_terms self current_value target_value dt).D = 0 ∧
        (calculate_terms self current_value target_value dt).state.initialized = false) := by
  refine ⟨?_, ?_, ?_, ?_⟩
  · intro n c h
    have := calculate_all_getElem? calls (new kp ki kd use_value) rfl n c h
    rw [this]
    simp only [new, zero_add]
    congr 2
    ring
  · have hlen : ∀ (l : List (ℚ × ℚ × ℚ)) (s : PID), (calculate_all s l).1.length = l.length := by
      intro l
      induction l with
      | nil => intro s; rfl
      | cons c0 rest ih => intro s; simp only [calculate_all, List.length_cons, ih]
    exact hlen calls _
  · exact calculate_all_initialized calls _ rfl
  · intro self current_value target_value dt hinit _
    obtain ⟨integral, initialized, pv, pe, uv, kp', ki', kd'⟩ := self
    simp only at hinit
    subst hinit
    cases uv <;> simp [calculate_terms]

/-- Witness for C22: two calls with `dt = 1` and `dt = 1/2` on `PID(1, 1, 5)`;
the second returns `clamp(1/8 + (1/4 + 1/16), -1, 1)`. -/
theorem derivative_never_applied_witness :
    (∀ c ∈ [((0 : ℚ), (1 / 4 : ℚ), (1 : ℚ)), (1 / 8, 1 / 4, 1 / 2)], c.2.2 ≠ 0) ∧
    (calculate_all (new 1 1 5 true) [(0, 1 / 4, 1), (1 / 8, 1 / 4, 1 / 2)]).1[1]?
      = some (clamp (1 * (1 / 4 - 1 / 8)
          + 1 * ((1 / 4 - 0) * 1 + ((1 / 4 - 1 / 8) * (1 / 2) + 0))) (-1) 1) :=
  ⟨by
      intro c hc
      simp only [List.mem_cons, List.mem_singleton, List.not_mem_nil, or_false] at hc
      rcases hc with rfl | rfl <;> norm_num,
   (derivative_never_applied 1 1 5 true [(0, 1 / 4, 1), (1 / 8, 1 / 4, 1 / 2)]
      (by
        intro c hc
        simp only [List.mem_cons, List.mem_singleton, List.not_mem_nil, or_false] at hc
        rcases hc with rfl | rfl <;> norm_num)).1 1 (1 / 8, 1 / 4, 1 / 2) rfl⟩

/-- C23: for every state of the object, all gains and every call
`calculate(current, target, dt)` with `dt ≠ 0`, the returned value lies in
`[-1, 1]`, and equals the unclamped sum `P + I + D` whenever that sum is within
`[-1, 1]`; the accumulated integral is `integral + (target - current) * dt`,
not clamped (it reaches 10 after one call with error 10 and `dt = 1`). Here
`P = error * kp`, `I = (integral + error * dt) * ki` and `D` is the rate of
change of the value or of the error, against the previous one when
`initialized` is set and against the current one otherwise, times `kd`. -/
theorem output_clamped (self : PID) (current_value target_value dt : ℚ) (_hdt : dt ≠ 0) :
    (-1 ≤ (calculate self current_value target_value dt).1 ∧
      (calculate self current_value target_value dt).1 ≤ 1) ∧
    (-1 ≤ (calculate_terms self current_value target_value dt).P
            + (calculate_terms self current_value target_value dt).I
            + (calculate_terms self current_value target_value dt).D →
      (calculate_terms self current_value target_value dt).P
            + (calculate_terms self current_value target_value dt).I
            + (calculate_terms self current_value target_value dt).D ≤ 1 →
      (calculate self current_value target_value dt).1
        = (calculate_terms self current_value target_value dt).P
            + (calculate_terms self current_value target_value dt).I
            + (calculate_terms self current_value target_value dt).D) ∧
    ((calculate_terms self current_value target_value dt).P
        = (target_value - current_value) * self.proportional_gain ∧
     (calculate_terms self current_value target_value dt).I
        = (self.integral + (target_value - current_value) * dt) * self.integral_gain ∧
     (calculate_terms self current_value target_value dt).D
        = (if self.use_value then
            (current_value
              - (if self.initialized then self.previous_value else current_value)) / dt
           else
            ((target_value - current_value)
              - (if self.initialized then self.previous_error
                 else target_value - current_value)) / dt)
          * self.derivative_gain) ∧
    (calculate self current_value target_value dt).2.integral
        = self.integral + (target_value - current_value) * dt ∧
    ((new 1 1 0 true).calculate 0 10 1).2.integral = 10 := by
  refine ⟨?_, ?_, ?_, ?_, ?_⟩
  · exact clamp_bounds _
  · intro h1 h2
    exact clamp_of_mem _ h1 h2
  · obtain ⟨integral, initialized, pv, pe, uv, kp, ki, kd⟩ := self
    cases initialized <;> cases uv <;> simp [calculate_terms]
  · obtain ⟨integral, initialized, pv, pe, uv, kp, ki, kd⟩ := self
    cases initialized <;> simp [calculate, calculate_terms]
  · simp [calculate, calculate_terms, new]

/-- Witness for C23: an object with `initialized` set and previous value 3,
called with `current = target = 1`, `dt = 1`; the sum `0 + 0 - 1/5` is
returned as it is. -/
theorem output_clamped_witness :
    (1 : ℚ) ≠ 0 ∧
    (-1 ≤ (calculate ⟨0, true, 3, 2, true, 1, 0, 1 / 10⟩ 1 1 1).1 ∧
      (calculate ⟨0, true, 3, 2, true, 1, 0, 1 / 10⟩ 1 1 1).1 ≤ 1) :=
  ⟨one_ne_zero, (output_clamped ⟨0, true, 3, 2, true, 1, 0, 1 / 10⟩ 1 1 1 one_ne_zero).1⟩

end PID
